import Mathlib

/-
Verification of the OpenMP exact dot product kernel of ReproBiCGStab
(src/MPI/exblas/exdot_omp.h).

The superaccumulator primitives (accumulate.h: Normalize, TwoProductFMA,
BIN_COUNT, IMIN, IMAX; the FPE cache of ExSUM.FPE.hpp; the vcl SIMD
wrappers) are not under src/; those are modelled from the spec, and each
such definition carries a doc comment saying so.  Everything taken from
exdot_omp.h itself is translated directly from the source.

Numbers: finite binary64 values and their products lie on the fixed-point
grid of the superaccumulator; we represent a value by its integer multiple
of the least bin unit (ℤ), and binary64 rounding of a product by an
arbitrary map fl : ℤ → ℤ.  Bins are unbounded integers: all statements are
made under the no-overflow precondition of the superaccumulator (overflow
of a 64-bit bin is a fatal precondition violation per the spec, section
4.1, so the embedding does not model the wraparound).
-/

namespace Exblas

/-- Modelled from the spec (accumulate.h is not under src/): bins hold
base-W digits with W = 2^52 (digit width 52 bits, spec section 4.1). -/
def W : ℤ := 2 ^ 52

/-- BIN_COUNT = 39 (spec, section 4.1; accumulate.h is not under src/). -/
def BIN_COUNT : ℕ := 39

/-- IMIN = 0 (spec, section 4.1). -/
def IMIN : ℕ := 0

/-- IMAX = 38 (spec, section 4.1). -/
def IMAX : ℕ := 38

/-- A superaccumulator: bins indexed by ℕ.  The real object is an array of
BIN_COUNT int64 bins; indices outside 0..BIN_COUNT-1 do not exist and are
kept at 0 (Supported). -/
abbrev SAcc := ℕ → ℤ

/-- All bins outside the BIN_COUNT-long array are zero. -/
def Supported (A : SAcc) : Prop := ∀ j, BIN_COUNT ≤ j → A j = 0

/-- Modelled from the spec: the logical value of a superaccumulator, in
units of the least bin; bin j has weight W^j. -/
def val (A : SAcc) : ℤ := ∑ j ∈ Finset.range BIN_COUNT, A j * W ^ j

/-- Modelled from the spec (Normalize lives in accumulate.h, not under
src/): one carry-propagation step of Normalize: bin i is reduced to its
canonical range and the carry moves into bin i+1. -/
def carryStep (A : SAcc) (i : ℕ) : SAcc := fun j =>
  if j = i then A i % W
  else if j = i + 1 then A (i + 1) + A i / W
  else A j

/-- Modelled from the spec (accumulate.h is not under src/): Normalize
sweeps the bins from IMIN upward, propagating carries between adjacent
bins; every intermediate bin ends in canonical range and the top bin IMAX
absorbs the remaining carry and the sign (spec, sections 3 and 4.1). -/
def Normalize (A : SAcc) : SAcc := (List.range IMAX).foldl carryStep A

/-- Iterated quotient by W: canonQ v j = v divided by W^j (rounding down). -/
def canonQ (v : ℤ) : ℕ → ℤ
  | 0 => v
  | j + 1 => canonQ v j / W

/-- Modelled from the spec: the canonical (normalized) superaccumulator
holding logical value v: base-W digits in bins 0..IMAX-1, the signed
remainder in bin IMAX ("b[IMAX] carries the sign of the whole number",
spec section 3). -/
def canonicalRep (v : ℤ) : SAcc := fun j =>
  if j < IMAX then canonQ v j % W
  else if j = IMAX then canonQ v IMAX
  else 0

theorem W_pos : (0 : ℤ) < W := by norm_num [W]

theorem W_ne_zero : (W : ℤ) ≠ 0 := by norm_num [W]

theorem carryStep_untouched (A : SAcc) (i j : ℕ) (h1 : j ≠ i) (h2 : j ≠ i + 1) :
    carryStep A i j = A j := by
  simp [carryStep, h1, h2]

theorem carryStep_supported (A : SAcc) (i : ℕ) (hi : i + 1 < BIN_COUNT)
    (hA : Supported A) : Supported (carryStep A i) := by
  intro j hj
  rw [carryStep_untouched A i j (by omega) (by omega)]
  exact hA j hj

theorem val_carryStep (A : SAcc) (i : ℕ) (hi : i + 1 < BIN_COUNT) :
    val (carryStep A i) = val A := by
  have hmem : i ∈ Finset.range BIN_COUNT := Finset.mem_range.mpr (by omega)
  have hmem1 : i + 1 ∈ Finset.range BIN_COUNT := Finset.mem_range.mpr hi
  have hdm := Int.ediv_add_emod (A i) W
  have hpt : ∀ j ∈ Finset.range BIN_COUNT, carryStep A i j * W ^ j =
      A j * W ^ j + ((if j = i then (A i % W - A i) * W ^ i else 0)
        + (if j = i + 1 then (A i / W) * W ^ (i + 1) else 0)) := by
    intro j hj
    by_cases h1 : j = i
    · rw [if_pos h1, if_neg (by omega : ¬ j = i + 1)]
      rw [show carryStep A i j = A i % W from by simp [carryStep, h1]]
      rw [h1]; ring
    · by_cases h2 : j = i + 1
      · rw [if_neg h1, if_pos h2]
        rw [show carryStep A i j = A (i + 1) + A i / W from by simp [carryStep, h1, h2]]
        rw [h2]; ring
      · rw [if_neg h1, if_neg h2, carryStep_untouched A i j h1 h2]; ring
  rw [val, Finset.sum_congr rfl hpt, Finset.sum_add_distrib, Finset.sum_add_distrib,
    Finset.sum_ite_eq' (Finset.range BIN_COUNT) i (fun _ => (A i % W - A i) * W ^ i),
    Finset.sum_ite_eq' (Finset.range BIN_COUNT) (i + 1) (fun _ => (A i / W) * W ^ (i + 1)),
    if_pos hmem, if_pos hmem1]
  have hcancel : A i % W - A i = -(W * (A i / W)) := by linarith
  rw [val, hcancel]
  ring

theorem foldl_carry_val (L : List ℕ) (A : SAcc) (hL : ∀ i ∈ L, i + 1 < BIN_COUNT) :
    val (L.foldl carryStep A) = val A := by
  induction L generalizing A with
  | nil => rfl
  | cons x xs ih =>
      simp only [List.foldl_cons]
      rw [ih _ (fun i hi => hL i (List.mem_cons_of_mem x hi)),
        val_carryStep A x (hL x (List.mem_cons_self x xs))]

theorem foldl_carry_untouched (L : List ℕ) (A : SAcc) (j : ℕ)
    (hL : ∀ i ∈ L, j ≠ i ∧ j ≠ i + 1) :
    (L.foldl carryStep A) j = A j := by
  induction L generalizing A with
  | nil => rfl
  | cons x xs ih =>
      simp only [List.foldl_cons]
      rw [ih _ (fun i hi => hL i (List.mem_cons_of_mem x hi))]
      exact carryStep_untouched A x j (hL x (List.mem_cons_self x xs)).1
        (hL x (List.mem_cons_self x xs)).2

theorem Normalize_val (A : SAcc) : val (Normalize A) = val A := by
  refine foldl_carry_val _ _ ?_
  intro i hi
  have := List.mem_range.mp hi
  simp only [IMAX] at this
  simp only [BIN_COUNT]
  omega

theorem Normalize_supported (A : SAcc) (hA : Supported A) : Supported (Normalize A) := by
  intro j hj
  rw [Normalize, foldl_carry_untouched _ _ _ ?_]
  · exact hA j hj
  · intro i hi
    have := List.mem_range.mp hi
    simp only [IMAX] at this
    simp only [BIN_COUNT] at hj
    omega

theorem sweep_digit_bounds (n : ℕ) (A : SAcc) :
    ∀ j < n, 0 ≤ ((List.range n).foldl carryStep A) j ∧ ((List.range n).foldl carryStep A) j < W := by
  induction n generalizing A with
  | zero => intro j hj; omega
  | succ n ih =>
      intro j hj
      rw [List.range_succ, List.foldl_append]
      simp only [List.foldl_cons, List.foldl_nil]
      by_cases hjn : j = n
      · subst hjn
        constructor
        · simp only [carryStep, if_pos rfl]
          exact Int.emod_nonneg _ W_ne_zero
        · simp only [carryStep, if_pos rfl]
          exact Int.emod_lt_of_pos _ W_pos
      · rw [carryStep_untouched _ _ _ hjn (by omega)]
        exact ih A j (by omega)

theorem Normalize_digit_bounds (A : SAcc) (j : ℕ) (hj : j < IMAX) :
    0 ≤ Normalize A j ∧ Normalize A j < W :=
  sweep_digit_bounds IMAX A j hj

theorem valFrom_split (B : SAcc) (j : ℕ) (hj : j < IMAX) :
    ∑ u ∈ Finset.Ico j BIN_COUNT, B u * W ^ (u - j) =
    B j + W * ∑ u ∈ Finset.Ico (j + 1) BIN_COUNT, B u * W ^ (u - (j + 1)) := by
  have hjlt : j < BIN_COUNT := by simp only [IMAX] at hj; simp only [BIN_COUNT]; omega
  rw [Finset.sum_eq_sum_Ico_succ_bot hjlt]
  have hfac : ∀ u ∈ Finset.Ico (j + 1) BIN_COUNT,
      B u * W ^ (u - j) = W * (B u * W ^ (u - (j + 1))) := by
    intro u hu
    rcases Finset.mem_Ico.mp hu with ⟨hu1, _⟩
    have he : u - j = (u - (j + 1)) + 1 := by omega
    rw [he, pow_succ]; ring
  rw [Finset.sum_congr rfl hfac, ← Finset.mul_sum, Nat.sub_self, pow_zero, mul_one]

theorem canonQ_valFrom (B : SAcc) (hdig : ∀ j < IMAX, 0 ≤ B j ∧ B j < W) :
    ∀ j, j ≤ IMAX → canonQ (val B) j = ∑ u ∈ Finset.Ico j BIN_COUNT, B u * W ^ (u - j) := by
  intro j
  induction j with
  | zero =>
      intro _
      simp only [canonQ, val]
      rw [Finset.range_eq_Ico]
      exact Finset.sum_congr rfl (fun u _ => by rw [Nat.sub_zero])
  | succ j ih =>
      intro hj
      have hjlt : j < IMAX := by omega
      have hstep : canonQ (val B) (j + 1) = canonQ (val B) j / W := rfl
      rw [hstep, ih (by omega), valFrom_split B j hjlt]
      have h0 : B j + W * ∑ u ∈ Finset.Ico (j + 1) BIN_COUNT, B u * W ^ (u - (j + 1)) =
          B j + W * (∑ u ∈ Finset.Ico (j + 1) BIN_COUNT, B u * W ^ (u - (j + 1))) := rfl
      rw [h0, Int.add_mul_ediv_left _ _ W_ne_zero,
        Int.ediv_eq_zero_of_lt (hdig j hjlt).1 (hdig j hjlt).2, zero_add]

theorem canonical_unique (B : SAcc) (hsupp : Supported B)
    (hdig : ∀ j < IMAX, 0 ≤ B j ∧ B j < W) :
    canonicalRep (val B) = B := by
  funext j
  by_cases h1 : j < IMAX
  · have hq := canonQ_valFrom B hdig j (by omega)
    rw [canonicalRep, if_pos h1, hq, valFrom_split B j h1,
      Int.add_mul_emod_self_left, Int.emod_eq_of_lt (hdig j h1).1 (hdig j h1).2]
  · by_cases h2 : j = IMAX
    · have hq := canonQ_valFrom B hdig IMAX le_rfl
      rw [canonicalRep, if_neg h1, if_pos h2, h2, hq]
      have hico : Finset.Ico IMAX BIN_COUNT = {IMAX} := by decide
      rw [hico, Finset.sum_singleton, Nat.sub_self, pow_zero, mul_one]
    · rw [canonicalRep, if_neg h1, if_neg h2]
      exact (hsupp j (by simp only [BIN_COUNT]; simp only [IMAX] at h1 h2; omega)).symm

theorem Normalize_eq_canonicalRep (A : SAcc) (hA : Supported A) :
    Normalize A = canonicalRep (val A) := by
  have h := canonical_unique (Normalize A) (Normalize_supported A hA)
    (fun j hj => Normalize_digit_bounds A j hj)
  rw [Normalize_val] at h
  exact h.symm

/-- The worker superaccumulator contents before normalization: the FPE
cache together with AccumulateDouble deposits the exact accumulated sum.
Modelled from the spec (ExSUM.FPE.hpp and accumulate.h are not under
src/): the accumulation pipeline is error-free, so after Flush the bins
represent exactly the accumulated value; we fix the representation that
holds the whole value in the least bin, which Normalize (called on the
worker accumulator in exdot_omp.h line 145) turns into the canonical
form - the same canonical form any other exact representation normalizes
to (theorem canonical_unique). -/
def singleBin (v : ℤ) : SAcc := fun j => if j = 0 then v else 0

theorem singleBin_supported (v : ℤ) : Supported (singleBin v) := by
  intro j hj
  simp only [BIN_COUNT] at hj
  show (if j = 0 then v else 0) = 0
  rw [if_neg (by omega : ¬ j = 0)]

theorem val_singleBin (v : ℤ) : val (singleBin v) = v := by
  have hpt : ∀ j ∈ Finset.range BIN_COUNT, singleBin v j * W ^ j =
      if j = 0 then v else 0 := by
    intro j _
    by_cases h : j = 0
    · simp [singleBin, h]
    · simp [singleBin, h]
  rw [val, Finset.sum_congr rfl hpt,
    Finset.sum_ite_eq' (Finset.range BIN_COUNT) 0 (fun _ => v),
    if_pos (Finset.mem_range.mpr (by simp only [BIN_COUNT]; omega))]

theorem val_canonicalRep (v : ℤ) : val (canonicalRep v) = v := by
  have h := Normalize_eq_canonicalRep (singleBin v) (singleBin_supported v)
  rw [val_singleBin] at h
  rw [← h, Normalize_val, val_singleBin]

theorem canonicalRep_supported (v : ℤ) : Supported (canonicalRep v) := by
  intro j hj
  simp only [BIN_COUNT] at hj
  show (if j < IMAX then canonQ v j % W else if j = IMAX then canonQ v IMAX else 0) = 0
  simp only [IMAX]
  rw [if_neg (by omega : ¬ j < 38), if_neg (by omega : ¬ j = 38)]

theorem canonQ_zero : ∀ j, canonQ 0 j = 0 := by
  intro j
  induction j with
  | zero => rfl
  | succ j ih => simp only [canonQ, ih, Int.zero_ediv]

theorem canonicalRep_zero : canonicalRep 0 = fun _ => (0 : ℤ) := by
  funext j
  by_cases h1 : j < IMAX
  · simp [canonicalRep, h1, canonQ_zero]
  · by_cases h2 : j = IMAX
    · simp [canonicalRep, h1, h2, canonQ_zero]
    · simp [canonicalRep, h1, h2]

theorem Normalize_zero : Normalize (fun _ => (0 : ℤ)) = fun _ => (0 : ℤ) := by
  have hs : Supported (fun _ => (0 : ℤ)) := fun j _ => rfl
  rw [Normalize_eq_canonicalRep _ hs]
  have hv : val (fun _ => (0 : ℤ)) = 0 := by simp [val]
  rw [hv, canonicalRep_zero]

/-- The bin-wise merge inside ReductionStep (exdot_omp.h lines 57-59):
acc1[i] += acc2[i] for IMIN <= i <= IMAX.  The spec calls this operation
MergeFrom. -/
def MergeFrom (acc1 acc2 : SAcc) : SAcc := fun i =>
  if IMIN ≤ i ∧ i ≤ IMAX then acc1 i + acc2 i else acc1 i

/-- ReductionStep (exdot_omp.h lines 42-60): normalize both
superaccumulators in place, then add acc2 bin-wise into acc1.  Mutation is
modelled by returning the new (acc1, acc2) pair.  The ready counter and
spin-wait only order the child's local phase before the parent's read;
they carry no accumulator state and are not otherwise modelled. -/
def ReductionStep (acc1 acc2 : SAcc) : SAcc × SAcc :=
  (MergeFrom (Normalize acc1) (Normalize acc2), Normalize acc2)

/-- One level s >= 1 of the tree Reduction (exdot_omp.h lines 73-89) as a
simultaneous per-thread update: a thread t < tnum with t % (1 << s) == 0
takes t2 = t | (1 << (s-1)) and, when t2 < tnum, runs ReductionStep on
(acc[t], acc[t2]), which merges acc[t2] into acc[t] and leaves acc[t2]
normalized; every other accumulator is untouched. -/
def levelRun (T s : ℕ) (accs : ℕ → SAcc) : ℕ → SAcc := fun t =>
  if t < T ∧ t % (1 <<< s) = 0 then
    (if (t ||| (1 <<< (s - 1))) < T then
       (ReductionStep (accs t) (accs (t ||| (1 <<< (s - 1))))).1
     else accs t)
  else if t < T ∧ t % (1 <<< s) = 1 <<< (s - 1) then
    (ReductionStep (accs (t - (1 <<< (s - 1)))) (accs t)).2
  else accs t

/-- Fuel-bounded translation of the loop header
"for s = 1; (1 << (s-1)) < tnum; ++s" (exdot_omp.h line 73): counts the
levels that run, starting from level index s' = s - 1.  Fuel T suffices
because 2^T >= T. -/
def nlAux (T : ℕ) : ℕ → ℕ → ℕ
  | 0, s => s
  | fuel + 1, s => if (1 <<< s) < T then nlAux T (fuel) (s + 1) else s

/-- The number of levels the reduction loop of exdot_omp.h line 73 runs. -/
def numLevels (T : ℕ) : ℕ := nlAux T T 0

/-- Reduction (exdot_omp.h lines 69-90): the custom tree reduction, levels
s = 1, 2, ... while (1 << (s-1)) < tnum. -/
def Reduction (T : ℕ) (accs : ℕ → SAcc) : ℕ → SAcc :=
  (List.range (numLevels T)).foldl (fun a s' => levelRun T (s' + 1) a) accs

theorem shiftl_one (s : ℕ) : (1 <<< s) = 2 ^ s := Nat.one_shiftLeft s

theorem two_pow_lor (s : ℕ) : ∀ m : ℕ, 2 * 2 ^ s * m ||| 2 ^ s = 2 * 2 ^ s * m + 2 ^ s := by
  induction s with
  | zero =>
      intro m
      simp only [pow_zero, mul_one]
      have h1 := Nat.lor_bit false m true 0
      simpa [Nat.bit_val] using h1
  | succ s ih =>
      intro m
      have e2 : (2 : ℕ) ^ (s + 1) = 2 * 2 ^ s := by ring
      rw [e2]
      have e3 : 2 * (2 * 2 ^ s) * m = 2 * (2 * 2 ^ s * m) := by ring
      rw [e3]
      have h1 := Nat.lor_bit false (2 * 2 ^ s * m) false (2 ^ s)
      simp only [Nat.bit_val, Bool.toNat_false, Nat.add_zero, Bool.or_false] at h1
      rw [h1, ih m]
      ring

theorem lor_pow_eq_add (s t : ℕ) (h : 2 ^ (s + 1) ∣ t) : t ||| 2 ^ s = t + 2 ^ s := by
  rcases h with ⟨m, rfl⟩
  have e : 2 ^ (s + 1) * m = 2 * 2 ^ s * m := by ring
  rw [e]
  exact two_pow_lor s m

theorem nlAux_counts (T : ℕ) : ∀ fuel s, ∀ j, s ≤ j → j < nlAux T fuel s → 2 ^ j < T := by
  intro fuel
  induction fuel with
  | zero => intro s j h1 h2; simp only [nlAux] at h2; omega
  | succ fuel ih =>
      intro s j h1 h2
      simp only [nlAux] at h2
      by_cases hg : (1 <<< s) < T
      · rw [if_pos hg] at h2
        by_cases hj : j = s
        · rw [hj]; rw [shiftl_one] at hg; exact hg
        · exact ih (s + 1) j (by omega) h2
      · rw [if_neg hg] at h2; omega

theorem nlAux_bound (T : ℕ) : ∀ fuel s, T ≤ 2 ^ (s + fuel) → T ≤ 2 ^ nlAux T fuel s := by
  intro fuel
  induction fuel with
  | zero => intro s h; simpa using h
  | succ fuel ih =>
      intro s h
      simp only [nlAux]
      by_cases hg : (1 <<< s) < T
      · rw [if_pos hg]
        exact ih (s + 1) (by rw [show s + 1 + fuel = s + (fuel + 1) by omega]; exact h)
      · rw [if_neg hg]
        rw [shiftl_one] at hg
        omega

theorem numLevels_lt (T : ℕ) : ∀ j < numLevels T, 2 ^ j < T := by
  intro j hj
  exact nlAux_counts T T 0 j (by omega) hj

theorem numLevels_bound (T : ℕ) : T ≤ 2 ^ numLevels T := by
  refine nlAux_bound T T 0 ?_
  simpa using (Nat.lt_pow_self (by norm_num) T).le

theorem numLevels_iff (T s' : ℕ) : s' < numLevels T ↔ 2 ^ s' < T := by
  constructor
  · exact numLevels_lt T s'
  · intro h
    by_contra hc
    have h1 : numLevels T ≤ s' := by omega
    have h2 : (2 : ℕ) ^ numLevels T ≤ 2 ^ s' := Nat.pow_le_pow_right (by norm_num) h1
    have h3 := numLevels_bound T
    omega

theorem val_MergeFrom (A B : SAcc) : val (MergeFrom A B) = val A + val B := by
  have hpt : ∀ j ∈ Finset.range BIN_COUNT, MergeFrom A B j * W ^ j =
      A j * W ^ j + B j * W ^ j := by
    intro j hj
    have hj1 := Finset.mem_range.mp hj
    simp only [BIN_COUNT] at hj1
    rw [show MergeFrom A B j = A j + B j from by
      simp [MergeFrom, IMIN, IMAX]; omega]
    ring
  rw [val, Finset.sum_congr rfl hpt, Finset.sum_add_distrib]
  rfl

theorem val_ReductionStep_fst (a b : SAcc) :
    val (ReductionStep a b).1 = val a + val b := by
  rw [ReductionStep]
  show val (MergeFrom (Normalize a) (Normalize b)) = val a + val b
  rw [val_MergeFrom, Normalize_val, Normalize_val]

theorem ReductionStep_snd (a b : SAcc) : (ReductionStep a b).2 = Normalize b := rfl

theorem val_ReductionStep_snd (a b : SAcc) :
    val (ReductionStep a b).2 = val b := Normalize_val b

theorem levelRun_untouched (T s : ℕ) (accs : ℕ → SAcc) (t : ℕ)
    (h1 : ¬ t % (1 <<< s) = 0) (h2 : ¬ t % (1 <<< s) = 1 <<< (s - 1)) :
    levelRun T s accs t = accs t := by
  show (if t < T ∧ t % (1 <<< s) = 0 then _ else _) = accs t
  rw [if_neg (by tauto), if_neg (by tauto)]

theorem reduction_invariant (T : ℕ) (accs : ℕ → SAcc) :
    ∀ k t, t < T → t % 2 ^ k = 0 →
    val (((List.range k).foldl (fun a s' => levelRun T (s' + 1) a) accs) t) =
      ∑ u ∈ Finset.Ico t (min (t + 2 ^ k) T), val (accs u) := by
  intro k
  induction k with
  | zero =>
      intro t ht _
      simp only [List.range_zero, List.foldl_nil, pow_zero]
      have hico : Finset.Ico t (t + 1) = {t} := by
        ext x
        simp only [Finset.mem_Ico, Finset.mem_singleton]
        omega
      rw [min_eq_left (by omega), hico, Finset.sum_singleton]
  | succ k ih =>
      intro t ht hmod
      rw [List.range_succ, List.foldl_append]
      simp only [List.foldl_cons, List.foldl_nil]
      set Ak := (List.range k).foldl (fun a s' => levelRun T (s' + 1) a) accs with hAk
      have hdvd : 2 ^ (k + 1) ∣ t := Nat.dvd_of_mod_eq_zero hmod
      have hdvdk : t % 2 ^ k = 0 := by
        rcases hdvd with ⟨m, rfl⟩
        have he : 2 ^ (k + 1) * m = 2 ^ k * (2 * m) := by ring
        rw [he, Nat.mul_mod_right]
      have hguard : t % (1 <<< (k + 1)) = 0 := by rw [shiftl_one]; exact hmod
      have hbody : levelRun T (k + 1) Ak t =
          (if (t ||| (1 <<< (k + 1 - 1))) < T then
            (ReductionStep (Ak t) (Ak (t ||| (1 <<< (k + 1 - 1))))).1
          else Ak t) := by
        simp only [levelRun, if_pos (And.intro ht hguard)]
      have hlor : t ||| (1 <<< (k + 1 - 1)) = t + 2 ^ k := by
        rw [show k + 1 - 1 = k from rfl, shiftl_one]
        exact lor_pow_eq_add k t hdvd
      rw [hbody, hlor]
      have hpw : 2 ^ k ≤ 2 ^ (k + 1) := Nat.pow_le_pow_right (by norm_num) (by omega)
      by_cases hc : t + 2 ^ k < T
      · rw [if_pos hc, val_ReductionStep_fst]
        have h2mod : (t + 2 ^ k) % 2 ^ k = 0 := by rw [Nat.add_mod_right]; exact hdvdk
        rw [ih t ht hdvdk, ih (t + 2 ^ k) hc h2mod]
        have hm1 : min (t + 2 ^ k) T = t + 2 ^ k := min_eq_left (by omega)
        have hm2 : t + 2 ^ k + 2 ^ k = t + 2 ^ (k + 1) := by ring
        rw [hm1, hm2]
        exact Finset.sum_Ico_consecutive _ (by omega)
          (le_min (by omega) (by omega))
      · rw [if_neg hc]
        rw [ih t ht hdvdk]
        rw [min_eq_right (by omega), min_eq_right (by omega)]

theorem Reduction_val (T : ℕ) (accs : ℕ → SAcc) (hT : 1 ≤ T) :
    val (Reduction T accs 0) = ∑ t ∈ Finset.range T, val (accs t) := by
  have h := reduction_invariant T accs (numLevels T) 0 (by omega) (Nat.zero_mod _)
  rw [Reduction, h]
  simp only [Nat.zero_add]
  rw [min_eq_right (numLevels_bound T), Finset.range_eq_Ico]

theorem MergeFrom_zero : MergeFrom (fun _ => (0 : ℤ)) (fun _ => (0 : ℤ)) = fun _ => (0 : ℤ) := by
  funext i
  by_cases h : IMIN ≤ i ∧ i ≤ IMAX
  · simp [MergeFrom, h]
  · simp [MergeFrom, h]

theorem ReductionStep_zero :
    ReductionStep (fun _ => (0 : ℤ)) (fun _ => (0 : ℤ)) =
      ((fun _ => (0 : ℤ)), (fun _ => (0 : ℤ))) := by
  rw [ReductionStep, Normalize_zero, MergeFrom_zero]

theorem levelRun_zero (T s : ℕ) (accs : ℕ → SAcc) (h : ∀ t, accs t = fun _ => 0) (t : ℕ) :
    levelRun T s accs t = fun _ => 0 := by
  show (if t < T ∧ t % (1 <<< s) = 0 then _ else _) = _
  by_cases h1 : t < T ∧ t % (1 <<< s) = 0
  · rw [if_pos h1]
    by_cases h2 : (t ||| (1 <<< (s - 1))) < T
    · rw [if_pos h2, h t, h (t ||| (1 <<< (s - 1))), ReductionStep_zero]
    · rw [if_neg h2, h t]
  · rw [if_neg h1]
    by_cases h2 : t < T ∧ t % (1 <<< s) = 1 <<< (s - 1)
    · rw [if_pos h2, h (t - (1 <<< (s - 1))), h t, ReductionStep_zero]
    · rw [if_neg h2, h t]

theorem foldl_levelRun_zero (T : ℕ) (L : List ℕ) (accs : ℕ → SAcc)
    (h : ∀ t, accs t = fun _ => 0) (t : ℕ) :
    (L.foldl (fun a s' => levelRun T (s' + 1) a) accs) t = fun _ => 0 := by
  induction L generalizing accs with
  | nil => exact h t
  | cons x xs ih =>
      simp only [List.foldl_cons]
      exact ih _ (fun u => levelRun_zero T (x + 1) accs h u)

/- Lane kernel, partition and entry points (exdot_omp.h lines 92-151 for the
two-operand version, 153-225 for the three-operand version). -/

/-- Modelled from the spec: TwoProductFMA (accumulate.h is not under src/)
returns p = fl(a*b), the rounded product, and e = fma(a, b, -p) = a*b - p,
which together satisfy the error-free-transform identity p + e = a*b
exactly (spec section 4.2).  The binary64 rounding is the abstract map fl. -/
def TwoProductFMA (fl : ℤ → ℤ) (a b : ℤ) : ℤ × ℤ := (fl (a * b), a * b - fl (a * b))

/-- Modelled from the spec: vcl mul_add(x, y, 0) (the vcl wrappers are not
under src/) is the product rounded once; the plain C double multiplication
of the scalar path rounds identically. -/
def mul_add0 (fl : ℤ → ℤ) (x y : ℤ) : ℤ := fl (x * y)

/-- Modelled from the spec: the partial-load accessor
make_vcl_vec8d(a, i, count) zero-fills all lanes at indices >= N before the
transform (spec section 4.3); full loads in the batched loop never reach
index N, so applying the padding there too is harmless. -/
def padded (N : ℕ) (a : ℕ → ℤ) (i : ℕ) : ℤ := if i < N then a i else 0

/-- l of the vector path (exdot_omp.h line 109):
l = ((tid * int64_t(N)) / tnum) & ~7ul, i.e. round down to a multiple of 8. -/
def lVec (N T t : ℕ) : ℕ := t * N / T / 8 * 8

/-- One past r of the vector path (exdot_omp.h line 110):
r = ((((tid+1) * int64_t(N)) / tnum) & ~7ul) - 1; we record rEndVec = r + 1,
so the batched loop covers [lVec, rEndVec). -/
def rEndVec (N T t : ℕ) : ℕ := (t + 1) * N / T / 8 * 8

/-- Number of iterations of the batched loop "for(i = l; i < r; i += 8)"
(exdot_omp.h line 112): iteration k at i = l + 8k runs iff
l + 8k < rEndVec - 1 over the ints, which for multiples of 8 is
k < (rEndVec - l) / 8 (theorem batch_iter_iff). -/
def numBatches (N T t : ℕ) : ℕ := (rEndVec N T t - lVec N T t) / 8

theorem lVec_le_rEndVec (N T t : ℕ) : lVec N T t ≤ rEndVec N T t :=
  Nat.mul_le_mul_right 8
    (Nat.div_le_div_right (Nat.div_le_div_right (Nat.mul_le_mul_right N (by omega))))

theorem batch_iter_iff (N T t k : ℕ) :
    ((lVec N T t : ℤ) + 8 * k < (rEndVec N T t : ℤ) - 1) ↔ k < numBatches N T t := by
  unfold numBatches rEndVec lVec
  generalize t * N / T / 8 = c
  generalize (t + 1) * N / T / 8 = d
  push_cast
  omega

theorem lVec_add_batches (N T t : ℕ) :
    lVec N T t + 8 * numBatches N T t = rEndVec N T t := by
  have h := lVec_le_rEndVec N T t
  unfold numBatches at *
  unfold rEndVec lVec at *
  generalize t * N / T / 8 = c at *
  generalize (t + 1) * N / T / 8 = d at *
  omega

/-- The tail guard "tid+1 == tnum && r != N-1" (exdot_omp.h line 123) over
the ints: r = rEndVec - 1, so r != N-1 is exactly rEndVec != N. -/
theorem tail_guard_iff (N T t : ℕ) :
    ((rEndVec N T t : ℤ) - 1 ≠ (N : ℤ) - 1) ↔ rEndVec N T t ≠ N := by
  omega

/-- Value fed into the FPE cache by one iteration of the two-operand batched
loop (exdot_omp.h lines 112-122): the 8 lanes of x = p and the 8 lanes of
r1 = e from TwoProductFMA are all accumulated.  Modelled from the spec: the
cache (ExSUM.FPE.hpp is not under src/) is value-exact, so only the sum of
the fed lanes matters for the accumulator value. -/
def batchAcc2 (fl : ℤ → ℤ) (a b : ℕ → ℤ) (i0 : ℕ) : ℤ :=
  (∑ k ∈ Finset.range 8, (TwoProductFMA fl (a (i0 + k)) (b (i0 + k))).1) +
    ∑ k ∈ Finset.range 8, (TwoProductFMA fl (a (i0 + k)) (b (i0 + k))).2

/-- Value accumulated by worker t of the two-operand vector path
(exdot_omp.h lines 108-132): the batched loop over [lVec, rEndVec) plus,
for the last worker when r != N-1, the zero-filled partial tail batch at
rEndVec. -/
def workerVal2Vec (N T : ℕ) (fl : ℤ → ℤ) (a b : ℕ → ℤ) (t : ℕ) : ℤ :=
  (∑ k ∈ Finset.range (numBatches N T t), batchAcc2 fl a b (lVec N T t + 8 * k)) +
    (if t + 1 = T ∧ rEndVec N T t ≠ N then
      batchAcc2 fl (padded N a) (padded N b) (rEndVec N T t)
    else 0)

/-- Value accumulated by worker t of the two-operand scalar fallback path
(exdot_omp.h lines 133-141, _WITHOUT_VCL): per-element TwoProductFMA over
l = tid*N/tnum to r = (tid+1)*N/tnum - 1 inclusive, i.e. over
[t*N/T, (t+1)*N/T); both x and r1 are accumulated. -/
def workerVal2Scal (N T : ℕ) (fl : ℤ → ℤ) (a b : ℕ → ℤ) (t : ℕ) : ℤ :=
  ∑ i ∈ Finset.Ico (t * N / T) ((t + 1) * N / T),
    ((TwoProductFMA fl (a i) (b i)).1 + (TwoProductFMA fl (a i) (b i)).2)

/-- Value fed by one iteration of the three-operand batched loop
(exdot_omp.h lines 173-189): x1 = mul_add(a, b, 0), x2 = mul_add(x1, c, 0),
and only x2 is accumulated; the rounding-error terms are not. -/
def batchAcc3 (fl : ℤ → ℤ) (a b c : ℕ → ℤ) (i0 : ℕ) : ℤ :=
  ∑ k ∈ Finset.range 8,
    mul_add0 fl (mul_add0 fl (a (i0 + k)) (b (i0 + k))) (c (i0 + k))

/-- Value accumulated by worker t of the three-operand vector path
(exdot_omp.h lines 169-205). -/
def workerVal3Vec (N T : ℕ) (fl : ℤ → ℤ) (a b c : ℕ → ℤ) (t : ℕ) : ℤ :=
  (∑ k ∈ Finset.range (numBatches N T t), batchAcc3 fl a b c (lVec N T t + 8 * k)) +
    (if t + 1 = T ∧ rEndVec N T t ≠ N then
      batchAcc3 fl (padded N a) (padded N b) (padded N c) (rEndVec N T t)
    else 0)

/-- Value accumulated by worker t of the three-operand scalar fallback path
(exdot_omp.h lines 206-215): x1 = a[i]*b[i], x2 = x1*c[i], only x2 fed. -/
def workerVal3Scal (N T : ℕ) (fl : ℤ → ℤ) (a b c : ℕ → ℤ) (t : ℕ) : ℤ :=
  ∑ i ∈ Finset.Ico (t * N / T) ((t + 1) * N / T),
    mul_add0 fl (mul_add0 fl (a i) (b i)) (c i)

/-- Worker t's superaccumulator after cache.Flush() and Normalize
(exdot_omp.h lines 143-145): the canonical representation of the exact
accumulated value v (see the doc comment of singleBin). -/
def localWorkerAcc (v : ℤ) : SAcc := Normalize (singleBin v)

/-- The two-operand ExDOTFPE (exdot_omp.h lines 92-151), vector path:
per-worker local accumulation, tree Reduction, and the copy-out loop
"for(i = IMIN; i <= IMAX; i++) h_superacc[i] = acc[i]" (lines 149-150).
T stands for the OpenMP thread count tnum = maxthreads. -/
def ExDOTFPE2 (N T : ℕ) (fl : ℤ → ℤ) (a b : ℕ → ℤ) : SAcc := fun i =>
  if IMIN ≤ i ∧ i ≤ IMAX then
    Reduction T (fun t => localWorkerAcc (workerVal2Vec N T fl a b t)) 0 i
  else 0

/-- The two-operand ExDOTFPE compiled with _WITHOUT_VCL (scalar fallback). -/
def ExDOTFPE2Scal (N T : ℕ) (fl : ℤ → ℤ) (a b : ℕ → ℤ) : SAcc := fun i =>
  if IMIN ≤ i ∧ i ≤ IMAX then
    Reduction T (fun t => localWorkerAcc (workerVal2Scal N T fl a b t)) 0 i
  else 0

/-- The three-operand ExDOTFPE (exdot_omp.h lines 153-225), vector path. -/
def ExDOTFPE3 (N T : ℕ) (fl : ℤ → ℤ) (a b c : ℕ → ℤ) : SAcc := fun i =>
  if IMIN ≤ i ∧ i ≤ IMAX then
    Reduction T (fun t => localWorkerAcc (workerVal3Vec N T fl a b c t)) 0 i
  else 0

/-- The three-operand ExDOTFPE compiled with _WITHOUT_VCL. -/
def ExDOTFPE3Scal (N T : ℕ) (fl : ℤ → ℤ) (a b c : ℕ → ℤ) : SAcc := fun i =>
  if IMIN ≤ i ∧ i ≤ IMAX then
    Reduction T (fun t => localWorkerAcc (workerVal3Scal N T fl a b c t)) 0 i
  else 0

/-- The entry point exdot_omp(size, x1_ptr, x2_ptr, h_superacc)
(exdot_omp.h lines 241-250): dispatches to the two-operand ExDOTFPE
(vector path in the default build). -/
def exdot_omp2 (N T : ℕ) (fl : ℤ → ℤ) (a b : ℕ → ℤ) : SAcc := ExDOTFPE2 N T fl a b

/-- The entry point exdot_omp(size, x1_ptr, x2_ptr, x3_ptr, h_superacc)
(exdot_omp.h lines 264-274): dispatches to the three-operand ExDOTFPE. -/
def exdot_omp3 (N T : ℕ) (fl : ℤ → ℤ) (a b c : ℕ → ℤ) : SAcc := ExDOTFPE3 N T fl a b c

theorem out_supported (A : ℕ → ℤ) :
    Supported (fun i => if IMIN ≤ i ∧ i ≤ IMAX then A i else 0) := by
  intro j hj
  show (if IMIN ≤ j ∧ j ≤ IMAX then A j else 0) = 0
  simp only [BIN_COUNT] at hj
  rw [if_neg (by simp only [IMIN, IMAX]; omega)]

theorem val_out (A : ℕ → ℤ) :
    val (fun i => if IMIN ≤ i ∧ i ≤ IMAX then A i else 0) = val A := by
  refine Finset.sum_congr rfl ?_
  intro j hj
  have hj1 := Finset.mem_range.mp hj
  simp only [BIN_COUNT] at hj1
  show (if IMIN ≤ j ∧ j ≤ IMAX then A j else 0) * W ^ j = A j * W ^ j
  rw [if_pos (by simp only [IMIN, IMAX]; omega)]

theorem val_localWorkerAcc (v : ℤ) : val (localWorkerAcc v) = v := by
  show val (Normalize (singleBin v)) = v
  rw [Normalize_val, val_singleBin]

theorem localWorkerAcc_canonical (v : ℤ) : localWorkerAcc v = canonicalRep v := by
  show Normalize (singleBin v) = canonicalRep v
  rw [Normalize_eq_canonicalRep _ (singleBin_supported v), val_singleBin]

theorem batchAcc2_sum (fl : ℤ → ℤ) (a b : ℕ → ℤ) (i0 : ℕ) :
    batchAcc2 fl a b i0 = ∑ k ∈ Finset.range 8, a (i0 + k) * b (i0 + k) := by
  rw [batchAcc2, ← Finset.sum_add_distrib]
  refine Finset.sum_congr rfl ?_
  intro k _
  show fl (a (i0 + k) * b (i0 + k)) +
    (a (i0 + k) * b (i0 + k) - fl (a (i0 + k) * b (i0 + k))) = _
  ring

theorem sum_blocks (f : ℕ → ℤ) (l : ℕ) :
    ∀ n, ∑ k ∈ Finset.range n, (∑ j ∈ Finset.range 8, f (l + 8 * k + j)) =
      ∑ i ∈ Finset.Ico l (l + 8 * n), f i := by
  intro n
  induction n with
  | zero => simp
  | succ n ih =>
      rw [Finset.sum_range_succ, ih]
      have hblock : ∑ j ∈ Finset.range 8, f (l + 8 * n + j) =
          ∑ i ∈ Finset.Ico (l + 8 * n) (l + 8 * n + 8), f i := by
        rw [Finset.sum_Ico_eq_sum_range]
        simp only [Nat.add_sub_cancel_left]
      rw [hblock, Finset.sum_Ico_consecutive _ (by omega) (by omega)]
      have he : l + 8 * (n + 1) = l + 8 * n + 8 := by ring
      rw [he]

theorem sum_Ico_telescope (g : ℕ → ℤ) (l : ℕ → ℕ) (hm : ∀ t, l t ≤ l (t + 1)) :
    ∀ n, ∑ t ∈ Finset.range n, (∑ i ∈ Finset.Ico (l t) (l (t + 1)), g i) =
      ∑ i ∈ Finset.Ico (l 0) (l n), g i := by
  have mono0 : ∀ n, l 0 ≤ l n := by
    intro n
    induction n with
    | zero => exact le_rfl
    | succ n ih => exact le_trans ih (hm n)
  intro n
  induction n with
  | zero => simp
  | succ n ih =>
      rw [Finset.sum_range_succ, ih, Finset.sum_Ico_consecutive _ (mono0 n) (hm n)]

theorem lVec_zero (N T : ℕ) : lVec N T 0 = 0 := by
  simp [lVec]

theorem lVec_top (N T : ℕ) (hT : 1 ≤ T) : lVec N T T = N / 8 * 8 := by
  unfold lVec
  rw [show T * N = N * T from Nat.mul_comm T N, Nat.mul_div_cancel N (by omega)]

theorem rEndVec_last (N T : ℕ) (hT : 1 ≤ T) : rEndVec N T (T - 1) = N / 8 * 8 := by
  unfold rEndVec
  rw [show T - 1 + 1 = T from by omega,
    show T * N = N * T from Nat.mul_comm T N, Nat.mul_div_cancel N (by omega)]

theorem batched2_eq (N T : ℕ) (fl : ℤ → ℤ) (a b : ℕ → ℤ) (t : ℕ) :
    ∑ k ∈ Finset.range (numBatches N T t), batchAcc2 fl a b (lVec N T t + 8 * k) =
      ∑ i ∈ Finset.Ico (lVec N T t) (rEndVec N T t), a i * b i := by
  have h1 : ∀ k ∈ Finset.range (numBatches N T t),
      batchAcc2 fl a b (lVec N T t + 8 * k) =
        ∑ j ∈ Finset.range 8, a (lVec N T t + 8 * k + j) * b (lVec N T t + 8 * k + j) := by
    intro k _
    rw [batchAcc2_sum]
  rw [Finset.sum_congr rfl h1, sum_blocks (fun i => a i * b i) (lVec N T t) (numBatches N T t),
    lVec_add_batches]

theorem tail2_eq (N : ℕ) (fl : ℤ → ℤ) (a b : ℕ → ℤ) :
    batchAcc2 fl (padded N a) (padded N b) (N / 8 * 8) =
      ∑ i ∈ Finset.Ico (N / 8 * 8) N, a i * b i := by
  have hM1 : N / 8 * 8 ≤ N := Nat.div_mul_le_self N 8
  have hM2 : N ≤ N / 8 * 8 + 8 := by
    have h := Nat.div_add_mod N 8
    have h2 : N % 8 < 8 := Nat.mod_lt N (by omega)
    omega
  rw [batchAcc2_sum]
  have hrange : ∑ k ∈ Finset.range 8, padded N a (N / 8 * 8 + k) * padded N b (N / 8 * 8 + k) =
      ∑ i ∈ Finset.Ico (N / 8 * 8) (N / 8 * 8 + 8), padded N a i * padded N b i := by
    rw [Finset.sum_Ico_eq_sum_range]
    simp only [Nat.add_sub_cancel_left]
  rw [hrange, ← Finset.sum_Ico_consecutive _ hM1 hM2]
  have hzero : ∑ i ∈ Finset.Ico N (N / 8 * 8 + 8), padded N a i * padded N b i = 0 := by
    refine Finset.sum_eq_zero ?_
    intro i hi
    rcases Finset.mem_Ico.mp hi with ⟨hi1, _⟩
    have hz : padded N a i = 0 := by
      unfold padded
      rw [if_neg (by omega : ¬ i < N)]
    rw [hz, zero_mul]
  rw [hzero, add_zero]
  refine Finset.sum_congr rfl ?_
  intro i hi
  rcases Finset.mem_Ico.mp hi with ⟨_, hi2⟩
  simp [padded, hi2]

theorem sum_workerVal2Vec (N T : ℕ) (fl : ℤ → ℤ) (a b : ℕ → ℤ) (hT : 1 ≤ T) :
    ∑ t ∈ Finset.range T, workerVal2Vec N T fl a b t =
      ∑ i ∈ Finset.range N, a i * b i := by
  have hM1 : N / 8 * 8 ≤ N := Nat.div_mul_le_self N 8
  unfold workerVal2Vec
  rw [Finset.sum_add_distrib]
  have hpart1 : ∑ t ∈ Finset.range T,
      (∑ k ∈ Finset.range (numBatches N T t), batchAcc2 fl a b (lVec N T t + 8 * k)) =
      ∑ i ∈ Finset.Ico 0 (N / 8 * 8), a i * b i := by
    have hc : ∀ t ∈ Finset.range T,
        (∑ k ∈ Finset.range (numBatches N T t), batchAcc2 fl a b (lVec N T t + 8 * k)) =
        ∑ i ∈ Finset.Ico (lVec N T t) (lVec N T (t + 1)), a i * b i := by
      intro t _
      exact batched2_eq N T fl a b t
    rw [Finset.sum_congr rfl hc,
      sum_Ico_telescope (fun i => a i * b i) (lVec N T) (fun t => lVec_le_rEndVec N T t) T,
      lVec_zero, lVec_top N T hT]
  have hpart2 : ∑ t ∈ Finset.range T,
      (if t + 1 = T ∧ rEndVec N T t ≠ N then
        batchAcc2 fl (padded N a) (padded N b) (rEndVec N T t) else 0) =
      ∑ i ∈ Finset.Ico (N / 8 * 8) N, a i * b i := by
    have hco : ∀ t ∈ Finset.range T,
        (if t + 1 = T ∧ rEndVec N T t ≠ N then
          batchAcc2 fl (padded N a) (padded N b) (rEndVec N T t) else 0) =
        (if t = T - 1 then
          (if rEndVec N T t ≠ N then
            batchAcc2 fl (padded N a) (padded N b) (rEndVec N T t) else 0) else 0) := by
      intro t _
      by_cases h : t = T - 1
      · have h1 : t + 1 = T := by omega
        rw [if_pos h]
        by_cases h2 : rEndVec N T t ≠ N
        · rw [if_pos ⟨h1, h2⟩, if_pos h2]
        · rw [if_neg (by tauto), if_neg h2]
      · have h1 : ¬ t + 1 = T := by omega
        rw [if_neg (by tauto), if_neg h]
    rw [Finset.sum_congr rfl hco,
      Finset.sum_ite_eq' (Finset.range T) (T - 1)
        (fun t => if rEndVec N T t ≠ N then
          batchAcc2 fl (padded N a) (padded N b) (rEndVec N T t) else 0),
      if_pos (Finset.mem_range.mpr (by omega))]
    rw [rEndVec_last N T hT]
    by_cases hM : N / 8 * 8 = N
    · rw [if_neg (by omega), hM, Finset.Ico_self, Finset.sum_empty]
    · rw [if_pos hM, tail2_eq]
  rw [hpart1, hpart2, Finset.sum_Ico_consecutive _ (Nat.zero_le _) hM1,
    Finset.range_eq_Ico]

theorem sum_workerVal2Scal (N T : ℕ) (fl : ℤ → ℤ) (a b : ℕ → ℤ) (hT : 1 ≤ T) :
    ∑ t ∈ Finset.range T, workerVal2Scal N T fl a b t =
      ∑ i ∈ Finset.range N, a i * b i := by
  unfold workerVal2Scal
  have hc : ∀ t ∈ Finset.range T,
      (∑ i ∈ Finset.Ico (t * N / T) ((t + 1) * N / T),
        ((TwoProductFMA fl (a i) (b i)).1 + (TwoProductFMA fl (a i) (b i)).2)) =
      ∑ i ∈ Finset.Ico ((fun u => u * N / T) t) ((fun u => u * N / T) (t + 1)), a i * b i := by
    intro t _
    refine Finset.sum_congr rfl ?_
    intro i _
    show fl (a i * b i) + (a i * b i - fl (a i * b i)) = _
    ring
  rw [Finset.sum_congr rfl hc,
    sum_Ico_telescope (fun i => a i * b i) (fun u => u * N / T)
      (fun t => Nat.div_le_div_right (Nat.mul_le_mul_right N (by omega))) T]
  show ∑ i ∈ Finset.Ico (0 * N / T) (T * N / T), a i * b i = _
  rw [Nat.zero_mul, Nat.zero_div, show T * N = N * T from Nat.mul_comm T N,
    Nat.mul_div_cancel N (by omega), Finset.range_eq_Ico]

theorem batched3_eq (N T : ℕ) (fl : ℤ → ℤ) (a b c : ℕ → ℤ) (t : ℕ) :
    ∑ k ∈ Finset.range (numBatches N T t), batchAcc3 fl a b c (lVec N T t + 8 * k) =
      ∑ i ∈ Finset.Ico (lVec N T t) (rEndVec N T t), fl (fl (a i * b i) * c i) := by
  have h1 : ∀ k ∈ Finset.range (numBatches N T t),
      batchAcc3 fl a b c (lVec N T t + 8 * k) =
        ∑ j ∈ Finset.range 8,
          fl (fl (a (lVec N T t + 8 * k + j) * b (lVec N T t + 8 * k + j)) *
            c (lVec N T t + 8 * k + j)) := by
    intro k _
    rfl
  rw [Finset.sum_congr rfl h1,
    sum_blocks (fun i => fl (fl (a i * b i) * c i)) (lVec N T t) (numBatches N T t),
    lVec_add_batches]

theorem tail3_eq (N : ℕ) (fl : ℤ → ℤ) (a b c : ℕ → ℤ) (h0 : fl 0 = 0) :
    batchAcc3 fl (padded N a) (padded N b) (padded N c) (N / 8 * 8) =
      ∑ i ∈ Finset.Ico (N / 8 * 8) N, fl (fl (a i * b i) * c i) := by
  have hM1 : N / 8 * 8 ≤ N := Nat.div_mul_le_self N 8
  have hM2 : N ≤ N / 8 * 8 + 8 := by
    have h := Nat.div_add_mod N 8
    have h2 : N % 8 < 8 := Nat.mod_lt N (by omega)
    omega
  show (∑ k ∈ Finset.range 8,
      mul_add0 fl (mul_add0 fl (padded N a (N / 8 * 8 + k)) (padded N b (N / 8 * 8 + k)))
        (padded N c (N / 8 * 8 + k))) = _
  have hrange : ∑ k ∈ Finset.range 8,
      mul_add0 fl (mul_add0 fl (padded N a (N / 8 * 8 + k)) (padded N b (N / 8 * 8 + k)))
        (padded N c (N / 8 * 8 + k)) =
      ∑ i ∈ Finset.Ico (N / 8 * 8) (N / 8 * 8 + 8),
        mul_add0 fl (mul_add0 fl (padded N a i) (padded N b i)) (padded N c i) := by
    rw [Finset.sum_Ico_eq_sum_range]
    simp only [Nat.add_sub_cancel_left]
  rw [hrange, ← Finset.sum_Ico_consecutive _ hM1 hM2]
  have hzero : ∑ i ∈ Finset.Ico N (N / 8 * 8 + 8),
      mul_add0 fl (mul_add0 fl (padded N a i) (padded N b i)) (padded N c i) = 0 := by
    refine Finset.sum_eq_zero ?_
    intro i hi
    rcases Finset.mem_Ico.mp hi with ⟨hi1, _⟩
    have hza : padded N a i = 0 := by
      unfold padded
      rw [if_neg (by omega : ¬ i < N)]
    have hzc : padded N c i = 0 := by
      unfold padded
      rw [if_neg (by omega : ¬ i < N)]
    rw [hza, hzc]
    show fl (fl (0 * padded N b i) * 0) = 0
    rw [zero_mul, h0, zero_mul, h0]
  rw [hzero, add_zero]
  refine Finset.sum_congr rfl ?_
  intro i hi
  rcases Finset.mem_Ico.mp hi with ⟨_, hi2⟩
  show fl (fl (padded N a i * padded N b i) * padded N c i) = _
  have hpa : padded N a i = a i := by unfold padded; rw [if_pos hi2]
  have hpb : padded N b i = b i := by unfold padded; rw [if_pos hi2]
  have hpc : padded N c i = c i := by unfold padded; rw [if_pos hi2]
  rw [hpa, hpb, hpc]

theorem sum_workerVal3Vec (N T : ℕ) (fl : ℤ → ℤ) (a b c : ℕ → ℤ)
    (hT : 1 ≤ T) (h0 : fl 0 = 0) :
    ∑ t ∈ Finset.range T, workerVal3Vec N T fl a b c t =
      ∑ i ∈ Finset.range N, fl (fl (a i * b i) * c i) := by
  have hM1 : N / 8 * 8 ≤ N := Nat.div_mul_le_self N 8
  unfold workerVal3Vec
  rw [Finset.sum_add_distrib]
  have hpart1 : ∑ t ∈ Finset.range T,
      (∑ k ∈ Finset.range (numBatches N T t), batchAcc3 fl a b c (lVec N T t + 8 * k)) =
      ∑ i ∈ Finset.Ico 0 (N / 8 * 8), fl (fl (a i * b i) * c i) := by
    have hc : ∀ t ∈ Finset.range T,
        (∑ k ∈ Finset.range (numBatches N T t), batchAcc3 fl a b c (lVec N T t + 8 * k)) =
        ∑ i ∈ Finset.Ico (lVec N T t) (lVec N T (t + 1)), fl (fl (a i * b i) * c i) := by
      intro t _
      exact batched3_eq N T fl a b c t
    rw [Finset.sum_congr rfl hc,
      sum_Ico_telescope (fun i => fl (fl (a i * b i) * c i)) (lVec N T)
        (fun t => lVec_le_rEndVec N T t) T,
      lVec_zero, lVec_top N T hT]
  have hpart2 : ∑ t ∈ Finset.range T,
      (if t + 1 = T ∧ rEndVec N T t ≠ N then
        batchAcc3 fl (padded N a) (padded N b) (padded N c) (rEndVec N T t) else 0) =
      ∑ i ∈ Finset.Ico (N / 8 * 8) N, fl (fl (a i * b i) * c i) := by
    have hco : ∀ t ∈ Finset.range T,
        (if t + 1 = T ∧ rEndVec N T t ≠ N then
          batchAcc3 fl (padded N a) (padded N b) (padded N c) (rEndVec N T t) else 0) =
        (if t = T - 1 then
          (if rEndVec N T t ≠ N then
            batchAcc3 fl (padded N a) (padded N b) (padded N c) (rEndVec N T t) else 0)
         else 0) := by
      intro t _
      by_cases h : t = T - 1
      · have h1 : t + 1 = T := by omega
        rw [if_pos h]
        by_cases h2 : rEndVec N T t ≠ N
        · rw [if_pos ⟨h1, h2⟩, if_pos h2]
        · rw [if_neg (by tauto), if_neg h2]
      · have h1 : ¬ t + 1 = T := by omega
        rw [if_neg (by tauto), if_neg h]
    rw [Finset.sum_congr rfl hco,
      Finset.sum_ite_eq' (Finset.range T) (T - 1)
        (fun t => if rEndVec N T t ≠ N then
          batchAcc3 fl (padded N a) (padded N b) (padded N c) (rEndVec N T t) else 0),
      if_pos (Finset.mem_range.mpr (by omega))]
    rw [rEndVec_last N T hT]
    by_cases hM : N / 8 * 8 = N
    · rw [if_neg (by omega), hM, Finset.Ico_self, Finset.sum_empty]
    · rw [if_pos hM, tail3_eq N fl a b c h0]
  rw [hpart1, hpart2, Finset.sum_Ico_consecutive _ (Nat.zero_le _) hM1,
    Finset.range_eq_Ico]

theorem sum_workerVal3Scal (N T : ℕ) (fl : ℤ → ℤ) (a b c : ℕ → ℤ) (hT : 1 ≤ T) :
    ∑ t ∈ Finset.range T, workerVal3Scal N T fl a b c t =
      ∑ i ∈ Finset.range N, fl (fl (a i * b i) * c i) := by
  unfold workerVal3Scal
  have hc : ∀ t ∈ Finset.range T,
      (∑ i ∈ Finset.Ico (t * N / T) ((t + 1) * N / T),
        mul_add0 fl (mul_add0 fl (a i) (b i)) (c i)) =
      ∑ i ∈ Finset.Ico ((fun u => u * N / T) t) ((fun u => u * N / T) (t + 1)),
        fl (fl (a i * b i) * c i) := by
    intro t _
    rfl
  rw [Finset.sum_congr rfl hc,
    sum_Ico_telescope (fun i => fl (fl (a i * b i) * c i)) (fun u => u * N / T)
      (fun t => Nat.div_le_div_right (Nat.mul_le_mul_right N (by omega))) T]
  show ∑ i ∈ Finset.Ico (0 * N / T) (T * N / T), fl (fl (a i * b i) * c i) = _
  rw [Nat.zero_mul, Nat.zero_div, show T * N = N * T from Nat.mul_comm T N,
    Nat.mul_div_cancel N (by omega), Finset.range_eq_Ico]

theorem ExDOTFPE2_val (N T : ℕ) (fl : ℤ → ℤ) (a b : ℕ → ℤ) (hT : 1 ≤ T) :
    val (ExDOTFPE2 N T fl a b) = ∑ i ∈ Finset.range N, a i * b i := by
  show val (fun i => if IMIN ≤ i ∧ i ≤ IMAX then
    Reduction T (fun t => localWorkerAcc (workerVal2Vec N T fl a b t)) 0 i else 0) = _
  rw [val_out, Reduction_val T _ hT]
  have hv : ∀ t ∈ Finset.range T,
      val (localWorkerAcc (workerVal2Vec N T fl a b t)) = workerVal2Vec N T fl a b t := by
    intro t _
    exact val_localWorkerAcc _
  rw [Finset.sum_congr rfl hv, sum_workerVal2Vec N T fl a b hT]

theorem ExDOTFPE2Scal_val (N T : ℕ) (fl : ℤ → ℤ) (a b : ℕ → ℤ) (hT : 1 ≤ T) :
    val (ExDOTFPE2Scal N T fl a b) = ∑ i ∈ Finset.range N, a i * b i := by
  show val (fun i => if IMIN ≤ i ∧ i ≤ IMAX then
    Reduction T (fun t => localWorkerAcc (workerVal2Scal N T fl a b t)) 0 i else 0) = _
  rw [val_out, Reduction_val T _ hT]
  have hv : ∀ t ∈ Finset.range T,
      val (localWorkerAcc (workerVal2Scal N T fl a b t)) = workerVal2Scal N T fl a b t := by
    intro t _
    exact val_localWorkerAcc _
  rw [Finset.sum_congr rfl hv, sum_workerVal2Scal N T fl a b hT]

theorem ExDOTFPE3_val (N T : ℕ) (fl : ℤ → ℤ) (a b c : ℕ → ℤ) (hT : 1 ≤ T) (h0 : fl 0 = 0) :
    val (ExDOTFPE3 N T fl a b c) = ∑ i ∈ Finset.range N, fl (fl (a i * b i) * c i) := by
  show val (fun i => if IMIN ≤ i ∧ i ≤ IMAX then
    Reduction T (fun t => localWorkerAcc (workerVal3Vec N T fl a b c t)) 0 i else 0) = _
  rw [val_out, Reduction_val T _ hT]
  have hv : ∀ t ∈ Finset.range T,
      val (localWorkerAcc (workerVal3Vec N T fl a b c t)) = workerVal3Vec N T fl a b c t := by
    intro t _
    exact val_localWorkerAcc _
  rw [Finset.sum_congr rfl hv, sum_workerVal3Vec N T fl a b c hT h0]

theorem ExDOTFPE3Scal_val (N T : ℕ) (fl : ℤ → ℤ) (a b c : ℕ → ℤ) (hT : 1 ≤ T) :
    val (ExDOTFPE3Scal N T fl a b c) = ∑ i ∈ Finset.range N, fl (fl (a i * b i) * c i) := by
  show val (fun i => if IMIN ≤ i ∧ i ≤ IMAX then
    Reduction T (fun t => localWorkerAcc (workerVal3Scal N T fl a b c t)) 0 i else 0) = _
  rw [val_out, Reduction_val T _ hT]
  have hv : ∀ t ∈ Finset.range T,
      val (localWorkerAcc (workerVal3Scal N T fl a b c t)) = workerVal3Scal N T fl a b c t := by
    intro t _
    exact val_localWorkerAcc _
  rw [Finset.sum_congr rfl hv, sum_workerVal3Scal N T fl a b c hT]

/- Claim theorems. -/

/-- Claim C1: for every N >= 0 and exact inputs x, y (on the fixed-point
grid of the superaccumulator, under the built-in no-overflow
precondition), the superaccumulator written by the two-operand
exdot_omp(N, x, y, h_superacc) represents exactly Σ_{i<N} x_i·y_i: each
element contributes the error-free pair (p, e) = TwoProductFMA(x_i, y_i)
with p + e = x_i·y_i, both halves are accumulated, and this holds for any
rounding map fl and any thread count T >= 1. -/
theorem C1_two_operand_exact (N T : ℕ) (fl : ℤ → ℤ) (x y : ℕ → ℤ) (hT : 1 ≤ T) :
    (∀ u v : ℤ, (TwoProductFMA fl u v).1 + (TwoProductFMA fl u v).2 = u * v) ∧
    val (exdot_omp2 N T fl x y) = ∑ i ∈ Finset.range N, x i * y i := by
  constructor
  · intro u v
    show fl (u * v) + (u * v - fl (u * v)) = u * v
    ring
  · exact ExDOTFPE2_val N T fl x y hT

/-- Witness for C1 at N = 3, T = 2, fl = id, x = (1,2,3), y = 2. -/
theorem C1_two_operand_exact_witness :
    val (exdot_omp2 3 2 id (fun i => (i : ℤ) + 1) (fun _ => 2)) = 12 :=
  ((C1_two_operand_exact 3 2 id (fun i => (i : ℤ) + 1) (fun _ => 2)
    (by norm_num)).2).trans (by decide)

set_option maxRecDepth 40000 in
/-- Claim C3: in the three-operand exdot each element feeds exactly one
value into the FPE cache, x2 = fl(fl(x_i·y_i)·w_i), one rounding per
multiplication and no rounding-error term, so the superaccumulator holds
the exact sum of the per-element twice-rounded triple products; and that
sum can differ from the exact real triple-product sum (second conjunct:
an explicit rounding and input where they differ). -/
theorem C3_three_operand_once_rounded (N T : ℕ) (fl : ℤ → ℤ) (x y w : ℕ → ℤ)
    (hT : 1 ≤ T) (h0 : fl 0 = 0) :
    val (exdot_omp3 N T fl x y w) = ∑ i ∈ Finset.range N, fl (fl (x i * y i) * w i) ∧
    (∃ (g : ℤ → ℤ) (u v z : ℕ → ℤ), g 0 = 0 ∧
      val (exdot_omp3 1 1 g u v z) ≠ ∑ i ∈ Finset.range 1, u i * v i * z i) := by
  constructor
  · exact ExDOTFPE3_val N T fl x y w hT h0
  · refine ⟨fun v => v / 4 * 4, fun _ => 3, fun _ => 3, fun _ => 3, by norm_num, ?_⟩
    decide

/-- Witness for C3 at N = 2, T = 1, fl = id. -/
theorem C3_three_operand_once_rounded_witness :
    val (exdot_omp3 2 1 id (fun _ => 2) (fun _ => 3) (fun _ => 5)) = 60 :=
  ((C3_three_operand_once_rounded 2 1 id (fun _ => 2) (fun _ => 3) (fun _ => 5)
    (le_refl 1) rfl).1).trans (by decide)

/-- Claim C6: ReductionStep(step, acc1, acc2, ready) normalizes both
accumulators and adds acc2 into acc1 bin-wise over IMIN..IMAX: acc1's
logical value becomes the sum of the operands' prior logical values,
acc2's logical value is unchanged (its bins change only by
renormalization, to Normalize acc2), and a level invoking the step leaves
every accumulator that is neither a parent nor a child untouched. -/
theorem C6_reduction_step_frame (a1 a2 : SAcc) (T s : ℕ) (accs : ℕ → SAcc) (u : ℕ)
    (h1 : ¬ u % (1 <<< s) = 0) (h2 : ¬ u % (1 <<< s) = 1 <<< (s - 1)) :
    val (ReductionStep a1 a2).1 = val a1 + val a2 ∧
    val (ReductionStep a1 a2).2 = val a2 ∧
    (ReductionStep a1 a2).2 = Normalize a2 ∧
    (ReductionStep a1 a2).1 = MergeFrom (Normalize a1) (Normalize a2) ∧
    levelRun T s accs u = accs u :=
  ⟨val_ReductionStep_fst a1 a2, val_ReductionStep_snd a1 a2, rfl, rfl,
    levelRun_untouched T s accs u h1 h2⟩

/-- Witness for C6: concrete accumulators; at level s = 2 thread 3 of 4 is
neither parent (3 % 4 ≠ 0) nor child (3 % 4 ≠ 2) and is untouched. -/
theorem C6_reduction_step_frame_witness :
    val (ReductionStep (singleBin 5) (singleBin 7)).1 = 12 ∧
    levelRun 4 2 (fun _ => singleBin 3) 3 = singleBin 3 := by
  have h := C6_reduction_step_frame (singleBin 5) (singleBin 7) 4 2
    (fun _ => singleBin 3) 3 (by decide) (by decide)
  exact ⟨h.1.trans (by rw [val_singleBin, val_singleBin]; norm_num), h.2.2.2.2⟩

/-- Claim C8: the bin-wise merge MergeFrom (acc1[i] += acc2[i] for
IMIN <= i <= IMAX) is commutative and associative up to normalization: for
superaccumulators supported on the BIN_COUNT-long array, either argument
order and either grouping give the same bins, hence equal logical values
and identical normalized forms. -/
theorem C8_merge_comm_assoc (A B C : SAcc) (hA : Supported A) (hB : Supported B) :
    MergeFrom A B = MergeFrom B A ∧
    MergeFrom (MergeFrom A B) C = MergeFrom A (MergeFrom B C) ∧
    val (MergeFrom A B) = val (MergeFrom B A) ∧
    Normalize (MergeFrom A B) = Normalize (MergeFrom B A) ∧
    Normalize (MergeFrom (MergeFrom A B) C) = Normalize (MergeFrom A (MergeFrom B C)) := by
  have hcomm : MergeFrom A B = MergeFrom B A := by
    funext i
    by_cases h : IMIN ≤ i ∧ i ≤ IMAX
    · show (if IMIN ≤ i ∧ i ≤ IMAX then A i + B i else A i) =
        (if IMIN ≤ i ∧ i ≤ IMAX then B i + A i else B i)
      rw [if_pos h, if_pos h]
      ring
    · show (if IMIN ≤ i ∧ i ≤ IMAX then A i + B i else A i) =
        (if IMIN ≤ i ∧ i ≤ IMAX then B i + A i else B i)
      rw [if_neg h, if_neg h]
      have hi : BIN_COUNT ≤ i := by
        simp only [IMIN, IMAX] at h
        simp only [BIN_COUNT]
        omega
      rw [hA i hi, hB i hi]
  have hassoc : MergeFrom (MergeFrom A B) C = MergeFrom A (MergeFrom B C) := by
    funext i
    by_cases h : IMIN ≤ i ∧ i ≤ IMAX
    · show (if IMIN ≤ i ∧ i ≤ IMAX then MergeFrom A B i + C i else MergeFrom A B i) =
        (if IMIN ≤ i ∧ i ≤ IMAX then A i + MergeFrom B C i else A i)
      rw [if_pos h]
      rw [if_pos h]
      show (if IMIN ≤ i ∧ i ≤ IMAX then A i + B i else A i) + C i =
        A i + (if IMIN ≤ i ∧ i ≤ IMAX then B i + C i else B i)
      rw [if_pos h, if_pos h]
      ring
    · show (if IMIN ≤ i ∧ i ≤ IMAX then MergeFrom A B i + C i else MergeFrom A B i) =
        (if IMIN ≤ i ∧ i ≤ IMAX then A i + MergeFrom B C i else A i)
      rw [if_neg h, if_neg h]
      show (if IMIN ≤ i ∧ i ≤ IMAX then A i + B i else A i) = A i
      rw [if_neg h]
  exact ⟨hcomm, hassoc, congrArg val hcomm, congrArg Normalize hcomm,
    congrArg Normalize hassoc⟩

/-- Witness for C8 at concrete supported accumulators. -/
theorem C8_merge_comm_assoc_witness :
    MergeFrom (singleBin 1) (singleBin 2) = MergeFrom (singleBin 2) (singleBin 1) ∧
    Normalize (MergeFrom (MergeFrom (singleBin 1) (singleBin 2)) (singleBin 3)) =
      Normalize (MergeFrom (singleBin 1) (MergeFrom (singleBin 2) (singleBin 3))) := by
  have h := C8_merge_comm_assoc (singleBin 1) (singleBin 2) (singleBin 3)
    (singleBin_supported 1) (singleBin_supported 2)
  exact ⟨h.1, h.2.2.2.2⟩

/-- Claim C9: for N = 0 and arbitrary accessors, the two-operand exdot_omp
writes an all-zero superaccumulator: l = 0 and r = -1, so no batch runs,
the tail guard r != N-1 is false (r = -1 = N-1), and the zero-initialized
accumulators are flushed, normalized, merged, and copied out unchanged. -/
theorem C9_empty_input_zero (T : ℕ) (fl : ℤ → ℤ) (x y : ℕ → ℤ) (j : ℕ) :
    exdot_omp2 0 T fl x y j = 0 := by
  have hw : ∀ t, workerVal2Vec 0 T fl x y t = 0 := by
    intro t
    unfold workerVal2Vec
    have hr : rEndVec 0 T t = 0 := by unfold rEndVec; simp
    have hl : lVec 0 T t = 0 := by unfold lVec; simp
    have hn : numBatches 0 T t = 0 := by unfold numBatches; rw [hr, hl]
    rw [hn, hr]
    simp
  have haccs : ∀ t, localWorkerAcc (workerVal2Vec 0 T fl x y t) = fun _ => (0 : ℤ) := by
    intro t
    rw [hw t]
    show Normalize (singleBin 0) = _
    have hsb : singleBin 0 = fun _ => (0 : ℤ) := by
      funext u
      by_cases h : u = 0 <;> simp [singleBin, h]
    rw [hsb, Normalize_zero]
  show (if IMIN ≤ j ∧ j ≤ IMAX then
    Reduction T (fun t => localWorkerAcc (workerVal2Vec 0 T fl x y t)) 0 j else 0) = 0
  by_cases h : IMIN ≤ j ∧ j ≤ IMAX
  · rw [if_pos h]
    have h0 := foldl_levelRun_zero T (List.range (numLevels T))
      (fun t => localWorkerAcc (workerVal2Vec 0 T fl x y t)) haccs 0
    show ((List.range (numLevels T)).foldl (fun a s' => levelRun T (s' + 1) a)
      (fun t => localWorkerAcc (workerVal2Vec 0 T fl x y t))) 0 j = 0
    rw [h0]
  · rw [if_neg h]

set_option maxRecDepth 100000 in
/-- Claim C2 is false as stated: at N = 16, T = 2 (T ∈ [1, N]) the output
bits differ from the T = 1 run on the same inputs
x = (2^52 - 1, 0, ..., 0, 1 at index 8, 0, ...), y = 1: worker 0 holds
2^52 - 1 and worker 1 holds 1, and the final ReductionStep leaves acc[0]
unnormalized, so bin 0 of the T = 2 output is 2^52 while the normalized
T = 1 output has bin 0 = 0 (the value carried into bin 1). -/
theorem C2_bit_identity_counterexample :
    exdot_omp2 16 2 id
        (fun i => if i = 0 then 2 ^ 52 - 1 else if i = 8 then 1 else 0) (fun _ => 1) 0 ≠
      exdot_omp2 16 1 id
        (fun i => if i = 0 then 2 ^ 52 - 1 else if i = 8 then 1 else 0) (fun _ => 1) 0 := by
  decide

/-- Claim C2 (amended): for every N and every thread count T >= 1 (in
particular every T ∈ [1, N]), the two-operand exdot produces a
superaccumulator with the same logical value as the T = 1 reference run,
and the normalized outputs are bit-identical; raw bit-identity of the
unnormalized output can fail for T > 1 because the last ReductionStep
leaves acc[0] unnormalized while the T = 1 run outputs the normalized
accumulator. -/
theorem C2_value_equals_T1 (N T : ℕ) (fl : ℤ → ℤ) (x y : ℕ → ℤ) (hT : 1 ≤ T) :
    val (exdot_omp2 N T fl x y) = val (exdot_omp2 N 1 fl x y) ∧
    Normalize (exdot_omp2 N T fl x y) = Normalize (exdot_omp2 N 1 fl x y) := by
  have h1 : val (exdot_omp2 N T fl x y) = ∑ i ∈ Finset.range N, x i * y i :=
    ExDOTFPE2_val N T fl x y hT
  have h2 : val (exdot_omp2 N 1 fl x y) = ∑ i ∈ Finset.range N, x i * y i :=
    ExDOTFPE2_val N 1 fl x y (le_refl 1)
  have hs1 : Supported (exdot_omp2 N T fl x y) := out_supported _
  have hs2 : Supported (exdot_omp2 N 1 fl x y) := out_supported _
  refine ⟨h1.trans h2.symm, ?_⟩
  rw [Normalize_eq_canonicalRep _ hs1, Normalize_eq_canonicalRep _ hs2]
  exact congrArg canonicalRep (h1.trans h2.symm)

/-- Witness for the amended C2 at N = 16, T = 2 with the counterexample
inputs: the normalized outputs agree even though the raw bits differ. -/
theorem C2_value_equals_T1_witness :
    Normalize (exdot_omp2 16 2 id
        (fun i => if i = 0 then 2 ^ 52 - 1 else if i = 8 then 1 else 0) (fun _ => 1)) =
      Normalize (exdot_omp2 16 1 id
        (fun i => if i = 0 then 2 ^ 52 - 1 else if i = 8 then 1 else 0) (fun _ => 1)) :=
  (C2_value_equals_T1 16 2 id
    (fun i => if i = 0 then 2 ^ 52 - 1 else if i = 8 then 1 else 0) (fun _ => 1)
    (by norm_num)).2

set_option maxRecDepth 100000 in
/-- Claim C7 is false as stated: at N = 9, T = 2 the scalar fallback and
the vector path write different superaccumulator bits for
x = (2^52 - 1, 0, 0, 0, 1, 0, 0, 0, 0), y = 1.  The scalar partition
splits the work (worker 0 gets [0,4), worker 1 gets [4,9)) so the
unnormalized merged bin 0 holds (2^52 - 1) + 1 = 2^52, while the vector
partition rounds worker 0's range down to nothing and worker 1 covers all
of [0,9), leaving a normalized output with bin 0 = 0. -/
theorem C7_bit_identity_counterexample :
    ExDOTFPE2Scal 9 2 id
        (fun i => if i = 0 then 2 ^ 52 - 1 else if i = 4 then 1 else 0) (fun _ => 1) 0 ≠
      ExDOTFPE2 9 2 id
        (fun i => if i = 0 then 2 ^ 52 - 1 else if i = 4 then 1 else 0) (fun _ => 1) 0 := by
  decide

/-- Claim C7 (amended): for every N and T >= 1 the scalar fallback path
(_WITHOUT_VCL, per-element TwoProductFMA over the unrounded partition)
and the 8-lane vector path produce superaccumulators with the same
logical value, bit-identical after normalization; the raw unnormalized
output bits can differ for T > 1 because the two paths partition the
input differently and the final merge is not renormalized. -/
theorem C7_scalar_vector_equal_value (N T : ℕ) (fl : ℤ → ℤ) (x y : ℕ → ℤ) (hT : 1 ≤ T) :
    val (ExDOTFPE2Scal N T fl x y) = val (ExDOTFPE2 N T fl x y) ∧
    Normalize (ExDOTFPE2Scal N T fl x y) = Normalize (ExDOTFPE2 N T fl x y) := by
  have h1 : val (ExDOTFPE2Scal N T fl x y) = ∑ i ∈ Finset.range N, x i * y i :=
    ExDOTFPE2Scal_val N T fl x y hT
  have h2 : val (ExDOTFPE2 N T fl x y) = ∑ i ∈ Finset.range N, x i * y i :=
    ExDOTFPE2_val N T fl x y hT
  have hs1 : Supported (ExDOTFPE2Scal N T fl x y) := out_supported _
  have hs2 : Supported (ExDOTFPE2 N T fl x y) := out_supported _
  refine ⟨h1.trans h2.symm, ?_⟩
  rw [Normalize_eq_canonicalRep _ hs1, Normalize_eq_canonicalRep _ hs2]
  exact congrArg canonicalRep (h1.trans h2.symm)

/-- Witness for the amended C7 at N = 9, T = 2 with the counterexample
inputs: the normalized outputs agree even though the raw bits differ. -/
theorem C7_scalar_vector_equal_value_witness :
    Normalize (ExDOTFPE2Scal 9 2 id
        (fun i => if i = 0 then 2 ^ 52 - 1 else if i = 4 then 1 else 0) (fun _ => 1)) =
      Normalize (ExDOTFPE2 9 2 id
        (fun i => if i = 0 then 2 ^ 52 - 1 else if i = 4 then 1 else 0) (fun _ => 1)) :=
  (C7_scalar_vector_equal_value 9 2 id
    (fun i => if i = 0 then 2 ^ 52 - 1 else if i = 4 then 1 else 0) (fun _ => 1)
    (by norm_num)).2

theorem lVec_mono (N T : ℕ) {u v : ℕ} (h : u ≤ v) : lVec N T u ≤ lVec N T v :=
  Nat.mul_le_mul_right 8
    (Nat.div_le_div_right (Nat.div_le_div_right (Nat.mul_le_mul_right N h)))

/-- Claim C4: with N inputs and T workers, the vector path gives worker t
the batched range [lVec, rEndVec) with lVec = (t*N/T) rounded down to a
multiple of 8 and rEndVec = ((t+1)*N/T) rounded down to a multiple of 8
(first conjunct: the loop batches cover exactly that range); only the last
worker processes the tail [rEndVec(T-1), N), exactly when rEndVec ≠ N;
every index i < N is accumulated by exactly one worker (second conjunct);
and zero-filled lanes at indices >= N contribute a zero product (third
conjunct). -/
theorem C4_partition_exactly_once (N T : ℕ) (hT : 1 ≤ T) :
    (∀ t, lVec N T t + 8 * numBatches N T t = rEndVec N T t) ∧
    (∀ i, i < N → ∃! t, t < T ∧
      (i ∈ Finset.Ico (lVec N T t) (rEndVec N T t) ∨
        (t + 1 = T ∧ rEndVec N T t ≠ N ∧ i ∈ Finset.Ico (rEndVec N T t) N))) ∧
    (∀ (fl : ℤ → ℤ) (x y : ℕ → ℤ) (i : ℕ), N ≤ i →
      (TwoProductFMA fl (padded N x i) (padded N y i)).1 +
        (TwoProductFMA fl (padded N x i) (padded N y i)).2 = 0) := by
  refine ⟨fun t => lVec_add_batches N T t, ?_, ?_⟩
  · intro i hiN
    have hM : N / 8 * 8 ≤ N := Nat.div_mul_le_self N 8
    have hl0 : lVec N T 0 = 0 := lVec_zero N T
    have hlT : lVec N T T = N / 8 * 8 := lVec_top N T hT
    by_cases hiM : i < N / 8 * 8
    · have hbase : lVec N T 0 ≤ i := by rw [hl0]; exact Nat.zero_le i
      have hspec : lVec N T (Nat.findGreatest (fun t => lVec N T t ≤ i) T) ≤ i :=
        @Nat.findGreatest_spec 0 (fun t => lVec N T t ≤ i) _ T (Nat.zero_le T) hbase
      have ht₀le : Nat.findGreatest (fun t => lVec N T t ≤ i) T ≤ T :=
        Nat.findGreatest_le T
      have ht₀T : Nat.findGreatest (fun t => lVec N T t ≤ i) T < T := by
        rcases Nat.lt_or_ge (Nat.findGreatest (fun t => lVec N T t ≤ i) T) T with h | h
        · exact h
        · exfalso
          have he : Nat.findGreatest (fun t => lVec N T t ≤ i) T = T := by omega
          rw [he, hlT] at hspec
          omega
      have hnext : i < lVec N T (Nat.findGreatest (fun t => lVec N T t ≤ i) T + 1) := by
        by_contra hc
        push_neg at hc
        exact @Nat.findGreatest_is_greatest
          (Nat.findGreatest (fun t => lVec N T t ≤ i) T + 1) (fun t => lVec N T t ≤ i) _ T
          (Nat.lt_succ_self _) (by omega) hc
      refine ⟨Nat.findGreatest (fun t => lVec N T t ≤ i) T,
        ⟨ht₀T, Or.inl (Finset.mem_Ico.mpr ⟨hspec, hnext⟩)⟩, ?_⟩
      rintro t' ⟨ht'T, hcase⟩
      rcases hcase with hbat | ⟨hlast, hne, htail⟩
      · rcases Finset.mem_Ico.mp hbat with ⟨hb1, hb2⟩
        have hre : rEndVec N T t' = lVec N T (t' + 1) := rfl
        rw [hre] at hb2
        by_contra hne'
        rcases Nat.lt_or_ge t' (Nat.findGreatest (fun t => lVec N T t ≤ i) T) with hlt | hge
        · have hmm : lVec N T (t' + 1) ≤
              lVec N T (Nat.findGreatest (fun t => lVec N T t ≤ i) T) :=
            lVec_mono N T (by omega)
          omega
        · have hmm : lVec N T (Nat.findGreatest (fun t => lVec N T t ≤ i) T + 1) ≤
              lVec N T t' := lVec_mono N T (by omega)
          omega
      · exfalso
        rcases Finset.mem_Ico.mp htail with ⟨htt, _⟩
        have hre : rEndVec N T t' = N / 8 * 8 := by
          rw [show t' = T - 1 from by omega]
          exact rEndVec_last N T hT
        omega
    · have hMne : N / 8 * 8 ≠ N := by omega
      have hreL : rEndVec N T (T - 1) = N / 8 * 8 := rEndVec_last N T hT
      refine ⟨T - 1, ⟨by omega, Or.inr ⟨by omega, by rw [hreL]; exact hMne,
        by rw [hreL]; exact Finset.mem_Ico.mpr ⟨by omega, hiN⟩⟩⟩, ?_⟩
      rintro t' ⟨ht'T, hcase⟩
      rcases hcase with hbat | ⟨hlast, _, _⟩
      · exfalso
        rcases Finset.mem_Ico.mp hbat with ⟨_, hb2⟩
        have hre : rEndVec N T t' = lVec N T (t' + 1) := rfl
        have hmm : lVec N T (t' + 1) ≤ lVec N T T := lVec_mono N T (by omega)
        rw [hlT] at hmm
        omega
      · omega
  · intro fl x y i hi
    have hx : padded N x i = 0 := by unfold padded; rw [if_neg (by omega)]
    have hy : padded N y i = 0 := by unfold padded; rw [if_neg (by omega)]
    rw [show (TwoProductFMA fl (padded N x i) (padded N y i)).1 =
      fl (padded N x i * padded N y i) from rfl,
      show (TwoProductFMA fl (padded N x i) (padded N y i)).2 =
        padded N x i * padded N y i - fl (padded N x i * padded N y i) from rfl,
      hx, hy]
    ring

/-- Witness for C4 at N = 11, T = 2: the batched bound holds for worker 1
and index 9 lies in exactly one worker's range (the tail of worker 1). -/
theorem C4_partition_exactly_once_witness :
    1 ≤ 2 ∧ (lVec 11 2 1 + 8 * numBatches 11 2 1 = rEndVec 11 2 1) ∧
    (∃! t, t < 2 ∧
      (9 ∈ Finset.Ico (lVec 11 2 t) (rEndVec 11 2 t) ∨
        (t + 1 = 2 ∧ rEndVec 11 2 t ≠ 11 ∧ 9 ∈ Finset.Ico (rEndVec 11 2 t) 11))) :=
  ⟨by norm_num, (C4_partition_exactly_once 11 2 (by norm_num)).1 1,
    (C4_partition_exactly_once 11 2 (by norm_num)).2.1 9 (by norm_num)⟩

/-- Claim C5: the tree reduction runs levels s = 1, 2, ... exactly while
2^(s-1) < T (first conjunct characterizes the executed level indices
s' = s - 1); at a level, a worker with t mod 2^s = 0 and t2 = t | 2^(s-1)
< T merges acc[t2] into acc[t] via ReductionStep (second conjunct, the
per-level action); after the last level acc[0]'s logical value is the sum
of all T per-worker values (third conjunct); and bins IMIN..IMAX of
acc[0] are copied to the caller's output buffer (fourth conjunct). -/
theorem C5_reduction_tree (T : ℕ) (accs : ℕ → SAcc) (hT : 1 ≤ T) :
    (∀ s', s' < numLevels T ↔ (1 <<< s') < T) ∧
    (∀ s (accs' : ℕ → SAcc) t, t < T → t % (1 <<< s) = 0 →
      (t ||| (1 <<< (s - 1))) < T →
      levelRun T s accs' t =
        (ReductionStep (accs' t) (accs' (t ||| (1 <<< (s - 1))))).1) ∧
    val (Reduction T accs 0) = ∑ t ∈ Finset.range T, val (accs t) ∧
    (∀ N fl x y i, IMIN ≤ i → i ≤ IMAX →
      exdot_omp2 N T fl x y i =
        Reduction T (fun t => localWorkerAcc (workerVal2Vec N T fl x y t)) 0 i) := by
  refine ⟨?_, ?_, Reduction_val T accs hT, ?_⟩
  · intro s'
    rw [shiftl_one]
    exact numLevels_iff T s'
  · intro s accs' t htT hmod ht2
    show (if t < T ∧ t % (1 <<< s) = 0 then _ else _) = _
    rw [if_pos ⟨htT, hmod⟩, if_pos ht2]
  · intro N fl x y i h1 h2
    show (if IMIN ≤ i ∧ i ≤ IMAX then
      Reduction T (fun t => localWorkerAcc (workerVal2Vec N T fl x y t)) 0 i else 0) = _
    rw [if_pos ⟨h1, h2⟩]

/-- Witness for C5 at T = 3 with concrete per-worker accumulators. -/
theorem C5_reduction_tree_witness :
    1 ≤ 3 ∧ val (Reduction 3 (fun t => singleBin ((t : ℤ) + 1)) 0) =
      ∑ t ∈ Finset.range 3, val (singleBin ((t : ℤ) + 1)) :=
  ⟨by norm_num,
    (C5_reduction_tree 3 (fun t => singleBin ((t : ℤ) + 1)) (by norm_num)).2.2.1⟩

/-- The merge events (s, parent, child) of level s of Reduction
(exdot_omp.h lines 81-87), listed in thread order up to thread bound τ:
thread t with t % (1 << s) == 0 and t2 = t | (1 << (s-1)) < tnum runs
ReductionStep(s, acc[t], acc[t2]). -/
def levelMerges (T s : ℕ) : ℕ → List (ℕ × ℕ × ℕ)
  | 0 => []
  | t + 1 => levelMerges T s t ++
      (if t % (1 <<< s) = 0 ∧ (t ||| (1 <<< (s - 1))) < T then
        [((s : ℕ), t, t ||| (1 <<< (s - 1)))] else [])

/-- The merge events of the first K levels of Reduction. -/
def mergesUpTo (T : ℕ) : ℕ → List (ℕ × ℕ × ℕ)
  | 0 => []
  | k + 1 => mergesUpTo T k ++ levelMerges T (k + 1) T

/-- All merge events performed by Reduction with T threads. -/
def allMerges (T : ℕ) : List (ℕ × ℕ × ℕ) := mergesUpTo T (numLevels T)

theorem child_eq_iff (σ t c : ℕ) :
    (t % 2 ^ (σ + 1) = 0 ∧ (t ||| 2 ^ σ) = c) ↔
      (c % 2 ^ (σ + 1) = 2 ^ σ ∧ t = c - 2 ^ σ) := by
  constructor
  · rintro ⟨h1, h2⟩
    have hd : 2 ^ (σ + 1) ∣ t := Nat.dvd_of_mod_eq_zero h1
    have hlor : t ||| 2 ^ σ = t + 2 ^ σ := lor_pow_eq_add σ t hd
    rw [hlor] at h2
    subst h2
    constructor
    · rcases hd with ⟨m, rfl⟩
      rw [Nat.mul_add_mod]
      exact Nat.mod_eq_of_lt (Nat.pow_lt_pow_right (by norm_num) (Nat.lt_succ_self σ))
    · omega
  · rintro ⟨h1, h2⟩
    have hle : 2 ^ σ ≤ c := le_trans (le_of_eq h1.symm) (Nat.mod_le c _)
    have hdm := Nat.div_add_mod c (2 ^ (σ + 1))
    have he : c - 2 ^ σ = 2 ^ (σ + 1) * (c / 2 ^ (σ + 1)) := by omega
    have hd : 2 ^ (σ + 1) ∣ (c - 2 ^ σ) := ⟨c / 2 ^ (σ + 1), he⟩
    constructor
    · rw [h2, he, Nat.mul_mod_right]
    · rw [h2, lor_pow_eq_add σ _ hd]
      omega

theorem cm_iff_dvd (σ c : ℕ) :
    c % 2 ^ (σ + 1) = 2 ^ σ ↔ (2 ^ σ ∣ c ∧ ¬ 2 ^ (σ + 1) ∣ c) := by
  constructor
  · intro h
    have hdm := Nat.div_add_mod c (2 ^ (σ + 1))
    constructor
    · refine ⟨2 * (c / 2 ^ (σ + 1)) + 1, ?_⟩
      calc c = 2 ^ (σ + 1) * (c / 2 ^ (σ + 1)) + c % 2 ^ (σ + 1) := hdm.symm
        _ = 2 ^ σ * (2 * (c / 2 ^ (σ + 1)) + 1) := by rw [h, pow_succ]; ring
    · rintro ⟨q, rfl⟩
      rw [Nat.mul_mod_right] at h
      have hp : 0 < 2 ^ σ := pow_pos (by norm_num) σ
      omega
  · rintro ⟨⟨m, rfl⟩, hnd⟩
    have hm : m % 2 = 1 := by
      rcases Nat.mod_two_eq_zero_or_one m with h | h
      · exfalso
        obtain ⟨q, hq⟩ : ∃ q, m = 2 * q := ⟨m / 2, by omega⟩
        exact hnd ⟨q, by rw [hq, pow_succ]; ring⟩
      · exact h
    obtain ⟨q, hq⟩ : ∃ q, m = 2 * q + 1 := ⟨m / 2, by omega⟩
    rw [hq]
    have he : 2 ^ σ * (2 * q + 1) = 2 ^ (σ + 1) * q + 2 ^ σ := by rw [pow_succ]; ring
    rw [he, Nat.mul_add_mod]
    exact Nat.mod_eq_of_lt (Nat.pow_lt_pow_right (by norm_num) (Nat.lt_succ_self σ))

theorem cm_unique (c s σ : ℕ) (h1 : c % 2 ^ (s + 1) = 2 ^ s)
    (h2 : c % 2 ^ (σ + 1) = 2 ^ σ) : s = σ := by
  rw [cm_iff_dvd] at h1 h2
  rcases Nat.lt_trichotomy s σ with h | h | h
  · exact absurd (dvd_trans (pow_dvd_pow 2 (by omega : s + 1 ≤ σ)) h2.1) h1.2
  · exact h
  · exact absurd (dvd_trans (pow_dvd_pow 2 (by omega : σ + 1 ≤ s)) h1.1) h2.2

theorem cm_exists (c : ℕ) (hc : 0 < c) : ∃ σ, c % 2 ^ (σ + 1) = 2 ^ σ := by
  have hbase : 2 ^ 0 ∣ c := by simp
  have hspec : 2 ^ (Nat.findGreatest (fun s => 2 ^ s ∣ c) c) ∣ c :=
    @Nat.findGreatest_spec 0 (fun s => 2 ^ s ∣ c) _ c (Nat.zero_le c) hbase
  refine ⟨Nat.findGreatest (fun s => 2 ^ s ∣ c) c, (cm_iff_dvd _ _).mpr ⟨hspec, ?_⟩⟩
  intro hdvd
  by_cases hle : Nat.findGreatest (fun s => 2 ^ s ∣ c) c + 1 ≤ c
  · exact @Nat.findGreatest_is_greatest (Nat.findGreatest (fun s => 2 ^ s ∣ c) c + 1)
      (fun s => 2 ^ s ∣ c) _ c (Nat.lt_succ_self _) hle hdvd
  · have h1 : 2 ^ (Nat.findGreatest (fun s => 2 ^ s ∣ c) c + 1) ≤ c := Nat.le_of_dvd hc hdvd
    have h2 : Nat.findGreatest (fun s => 2 ^ s ∣ c) c + 1 <
        2 ^ (Nat.findGreatest (fun s => 2 ^ s ∣ c) c + 1) := Nat.lt_two_pow _
    omega

theorem levelMerges_countP (T c σ : ℕ) (hcT : c < T) : ∀ τ,
    (levelMerges T (σ + 1) τ).countP (fun e => e.2.2 == c) =
      if c % 2 ^ (σ + 1) = 2 ^ σ ∧ c - 2 ^ σ < τ then 1 else 0 := by
  intro τ
  induction τ with
  | zero =>
      rw [show levelMerges T (σ + 1) 0 = [] from rfl, List.countP_nil, if_neg]
      rintro ⟨_, h⟩
      omega
  | succ τ ih =>
      rw [show levelMerges T (σ + 1) (τ + 1) = levelMerges T (σ + 1) τ ++
        (if τ % (1 <<< (σ + 1)) = 0 ∧ (τ ||| (1 <<< (σ + 1 - 1))) < T then
          [((σ + 1 : ℕ), τ, τ ||| (1 <<< (σ + 1 - 1)))] else []) from rfl]
      simp only [shiftl_one, Nat.add_sub_cancel]
      rw [List.countP_append, ih]
      by_cases hcm : c % 2 ^ (σ + 1) = 2 ^ σ
      · have hback := (child_eq_iff σ (c - 2 ^ σ) c).mpr ⟨hcm, rfl⟩
        by_cases hτ : τ = c - 2 ^ σ
        · subst hτ
          rw [if_neg (show ¬ (c % 2 ^ (σ + 1) = 2 ^ σ ∧ c - 2 ^ σ < c - 2 ^ σ) from by
            rintro ⟨_, h⟩; omega)]
          rw [if_pos (show (c - 2 ^ σ) % 2 ^ (σ + 1) = 0 ∧ ((c - 2 ^ σ) ||| 2 ^ σ) < T from
            ⟨hback.1, by rw [hback.2]; exact hcT⟩)]
          rw [List.countP_cons, List.countP_nil]
          rw [if_pos (show c % 2 ^ (σ + 1) = 2 ^ σ ∧ c - 2 ^ σ < c - 2 ^ σ + 1 from
            ⟨hcm, by omega⟩)]
          simp [hback.2]
        · have happ : (if τ % 2 ^ (σ + 1) = 0 ∧ (τ ||| 2 ^ σ) < T then
              [((σ + 1 : ℕ), τ, τ ||| 2 ^ σ)] else []).countP (fun e => e.2.2 == c) = 0 := by
            by_cases hg : τ % 2 ^ (σ + 1) = 0 ∧ (τ ||| 2 ^ σ) < T
            · rw [if_pos hg, List.countP_cons, List.countP_nil]
              have hne : ¬ (τ ||| 2 ^ σ) = c :=
                fun hch => hτ ((child_eq_iff σ τ c).mp ⟨hg.1, hch⟩).2
              simp [hne]
            · rw [if_neg hg, List.countP_nil]
          rw [happ]
          by_cases hlt : c - 2 ^ σ < τ
          · rw [if_pos (show c % 2 ^ (σ + 1) = 2 ^ σ ∧ c - 2 ^ σ < τ from ⟨hcm, hlt⟩),
              if_pos (show c % 2 ^ (σ + 1) = 2 ^ σ ∧ c - 2 ^ σ < τ + 1 from
                ⟨hcm, by omega⟩)]
          · rw [if_neg (show ¬ (c % 2 ^ (σ + 1) = 2 ^ σ ∧ c - 2 ^ σ < τ) from by
              rintro ⟨_, h⟩; exact hlt h),
              if_neg (show ¬ (c % 2 ^ (σ + 1) = 2 ^ σ ∧ c - 2 ^ σ < τ + 1) from by
              rintro ⟨_, h⟩; omega)]
      · have happ : (if τ % 2 ^ (σ + 1) = 0 ∧ (τ ||| 2 ^ σ) < T then
            [((σ + 1 : ℕ), τ, τ ||| 2 ^ σ)] else []).countP (fun e => e.2.2 == c) = 0 := by
          by_cases hg : τ % 2 ^ (σ + 1) = 0 ∧ (τ ||| 2 ^ σ) < T
          · rw [if_pos hg, List.countP_cons, List.countP_nil]
            have hne : ¬ (τ ||| 2 ^ σ) = c :=
              fun hch => hcm ((child_eq_iff σ τ c).mp ⟨hg.1, hch⟩).1
            simp [hne]
          · rw [if_neg hg, List.countP_nil]
        rw [happ,
          if_neg (show ¬ (c % 2 ^ (σ + 1) = 2 ^ σ ∧ c - 2 ^ σ < τ) from by tauto),
          if_neg (show ¬ (c % 2 ^ (σ + 1) = 2 ^ σ ∧ c - 2 ^ σ < τ + 1) from by tauto)]

theorem mergesUpTo_countP (T c σ : ℕ) (hcT : c < T)
    (hcm : c % 2 ^ (σ + 1) = 2 ^ σ) : ∀ K,
    (mergesUpTo T K).countP (fun e => e.2.2 == c) = if σ < K then 1 else 0 := by
  intro K
  induction K with
  | zero =>
      rw [show mergesUpTo T 0 = [] from rfl, List.countP_nil, if_neg (by omega)]
  | succ K ih =>
      rw [show mergesUpTo T (K + 1) = mergesUpTo T K ++ levelMerges T (K + 1) T from rfl,
        List.countP_append, ih, levelMerges_countP T c K hcT T]
      by_cases hK : K = σ
      · subst hK
        rw [if_neg (by omega), if_pos ⟨hcm, by omega⟩, if_pos (by omega)]
      · have hKcm : ¬ c % 2 ^ (K + 1) = 2 ^ K := fun h => hK (cm_unique c K σ h hcm)
        rw [if_neg (show ¬ (c % 2 ^ (K + 1) = 2 ^ K ∧ c - 2 ^ K < T) from by tauto)]
        by_cases hσK : σ < K
        · rw [if_pos hσK, if_pos (show σ < K + 1 from by omega)]
        · rw [if_neg hσK, if_neg (show ¬ σ < K + 1 from by omega)]

theorem mem_levelMerges (T s : ℕ) : ∀ τ (e : ℕ × ℕ × ℕ), e ∈ levelMerges T s τ →
    ∃ t, t < τ ∧ (t % (1 <<< s) = 0 ∧ (t ||| (1 <<< (s - 1))) < T) ∧
      e = ((s : ℕ), t, t ||| (1 <<< (s - 1))) := by
  intro τ
  induction τ with
  | zero =>
      intro e he
      exact absurd he (List.not_mem_nil e)
  | succ τ ih =>
      intro e he
      rw [show levelMerges T s (τ + 1) = levelMerges T s τ ++
        (if τ % (1 <<< s) = 0 ∧ (τ ||| (1 <<< (s - 1))) < T then
          [((s : ℕ), τ, τ ||| (1 <<< (s - 1)))] else []) from rfl] at he
      rcases List.mem_append.mp he with h | h
      · rcases ih e h with ⟨t, h1, h2, h3⟩
        exact ⟨t, by omega, h2, h3⟩
      · by_cases hg : τ % (1 <<< s) = 0 ∧ (τ ||| (1 <<< (s - 1))) < T
        · rw [if_pos hg] at h
          exact ⟨τ, by omega, hg, List.mem_singleton.mp h⟩
        · rw [if_neg hg] at h
          exact absurd h (List.not_mem_nil e)

theorem mem_mergesUpTo (T : ℕ) : ∀ K (e : ℕ × ℕ × ℕ), e ∈ mergesUpTo T K →
    ∃ s', s' < K ∧ e ∈ levelMerges T (s' + 1) T := by
  intro K
  induction K with
  | zero =>
      intro e he
      exact absurd he (List.not_mem_nil e)
  | succ K ih =>
      intro e he
      rw [show mergesUpTo T (K + 1) = mergesUpTo T K ++ levelMerges T (K + 1) T
        from rfl] at he
      rcases List.mem_append.mp he with h | h
      · rcases ih e h with ⟨s', h1, h2⟩
        exact ⟨s', by omega, h2⟩
      · exact ⟨K, by omega, h⟩

/-- Claim C10: for every thread count T >= 1, power of two or not, the tree
reduction merges each worker index c in [1, T) exactly once (first
conjunct: exactly one merge event has child c), and that event's level s
satisfies 2^(s-1) ∣ c and 2^s ∤ c (2^(s-1) is the lowest set bit of c),
with parent c - 2^(s-1), which satisfies parent mod 2^s = 0 and
child = parent | 2^(s-1) (second conjunct): no contribution is duplicated
or dropped. -/
theorem C10_each_child_merged_once (T c : ℕ) (hc0 : 0 < c) (hcT : c < T) :
    ((allMerges T).countP (fun e => e.2.2 == c) = 1) ∧
    (∀ e ∈ allMerges T, e.2.2 = c →
      2 ^ (e.1 - 1) ∣ c ∧ ¬ 2 ^ e.1 ∣ c ∧ e.2.1 = c - 2 ^ (e.1 - 1) ∧
        e.2.1 % 2 ^ e.1 = 0 ∧ e.2.2 = e.2.1 ||| 2 ^ (e.1 - 1)) := by
  obtain ⟨σ, hσ⟩ := cm_exists c hc0
  constructor
  · rw [show allMerges T = mergesUpTo T (numLevels T) from rfl,
      mergesUpTo_countP T c σ hcT hσ (numLevels T), if_pos]
    rw [numLevels_iff]
    have hd := (cm_iff_dvd σ c).mp hσ
    have hlec := Nat.le_of_dvd hc0 hd.1
    omega
  · intro e he hec
    obtain ⟨s', hs', hmem⟩ := mem_mergesUpTo T (numLevels T) e he
    obtain ⟨t, htT, ⟨hg1, hg2⟩, rfl⟩ := mem_levelMerges T (s' + 1) T e hmem
    simp only [shiftl_one, Nat.add_sub_cancel] at hg1 hg2 hec ⊢
    have hci := (child_eq_iff s' t c).mp ⟨hg1, hec⟩
    have hdvd := (cm_iff_dvd s' c).mp hci.1
    exact ⟨hdvd.1, hdvd.2, hci.2, hg1, trivial⟩

/-- Witness for C10 at T = 6, c = 4: worker 4 is merged exactly once (at
level 3, into parent 0). -/
theorem C10_each_child_merged_once_witness :
    0 < 4 ∧ (allMerges 6).countP (fun e => e.2.2 == 4) = 1 :=
  ⟨by norm_num, (C10_each_child_merged_once 6 4 (by norm_num) (by norm_num)).1⟩

end Exblas
